import Mathlib

/-!
# Verification of the slicer-panel offline audio analysis pipeline

Shallow embedding of the precompute worker (`src/workers/precompute-worker.js`)
and the FFT engine (`src/lib/fft.js`) of the `arkbuilder/slicer-panel`
repository, together with proofs settling the specification claims.

Modelling conventions:
* JavaScript double/`Float32Array` values are idealised as real numbers `ℝ`;
  integer-valued configuration fields are modelled over `ℚ`/`ℤ`/`ℕ`.
* Typed arrays become `List`s; in-place writes become functional updates.
* Fallible code (`throw`) returns `Except String`.
* Payload fields that may be absent (`undefined`) are `Option`s; the model
  assumes integer-valued `hopSize`/`numBands`/`numSamples` fields (fractional
  values lead to undefined-index `NaN` propagation in JS, outside every claim).
-/

namespace SlicerPanel

open Real Complex

/-- JavaScript `Math.round`: round half away towards positive infinity,
`Math.round x = ⌊x + 1/2⌋`. -/
def jsRound {α : Type} [LinearOrderedField α] [FloorRing α] (x : α) : ℤ :=
  ⌊x + 1 / 2⌋

/-- `clampInt(value, min, max) = Math.max(min, Math.min(max, value))` from the
worker source. -/
def clampInt (value lo hi : ℤ) : ℤ :=
  max lo (min hi value)

/-- `EPSILON = 1e-12` from the worker source. -/
def EPSILON : ℝ := 1e-12

/-- `SPECTROGRAM_MIN_DB = -100` from the worker source. -/
def SPECTROGRAM_MIN_DB : ℝ := -100

/-- `TILE_SIZE = 1000` from the worker source. -/
def TILE_SIZE : ℕ := 1000

/-- `WAVEFORM_SCALES = [64, 256, 1024, 4096]` from the worker source. -/
def WAVEFORM_SCALES : List ℕ := [64, 256, 1024, 4096]

/-- `collectRuns(values, predicate, minLength)`: scan a per-index boolean
predicate, accumulate contiguous `true` runs, keep runs of at least
`minLength`, flushing a run still open at the end of the array. -/
def collectRuns {α : Type} (values : List α) (pred : α → ℕ → Bool)
    (minLength : ℕ) : List (ℕ × ℕ) :=
  let step := fun (st : Option ℕ × List (ℕ × ℕ)) (p : ℕ × α) =>
    match st, pred p.2 p.1 with
    | (none, runs), true => (some p.1, runs)
    | (some s, runs), true => (some s, runs)
    | (none, runs), false => (none, runs)
    | (some s, runs), false =>
        (none, if minLength ≤ p.1 - s then runs ++ [(s, p.1 - 1)] else runs)
  match values.enum.foldl step (none, []) with
  | (none, runs) => runs
  | (some s, runs) =>
      if minLength ≤ values.length - s then runs ++ [(s, values.length - 1)]
      else runs

/-- `computeRunningMedian(values, radius)`: centered running median with a
window clipped to the array bounds, sorted ascending each step; the median is
the element at index `⌊window.length / 2⌋` (`?? 0` for an empty window).
The source's `window.sort((a, b) => a - b)` is modelled with insertion sort:
over a linear order every correct sort returns the same list. -/
def computeRunningMedian {α : Type} [LinearOrder α] [Zero α]
    (values : List α) (radius : ℕ) : List α :=
  List.ofFn (n := values.length) fun i =>
    let start := (i : ℕ) - radius
    let stop := min (values.length - 1) ((i : ℕ) + radius)
    let window := (List.range (stop + 1 - start)).map fun j =>
      values.getD (start + j) 0
    let sorted := window.insertionSort (· ≤ ·)
    sorted.getD (sorted.length / 2) 0

/-- `detectOnsets(flux, medians)`: collect the indices `i ≥ 1` where the flux
exceeds `4 * max(medians[i], 1e-6)` and is a local peak, with a missing
neighbour (`flux[i±1] ?? 0`) treated as `0`.  The source loop runs `i` from
`1` to `flux.length - 1`, modelled as a filter of `List.range flux.length`. -/
def detectOnsets {α : Type} [LinearOrderedField α]
    (flux medians : List α) : List ℕ :=
  (List.range flux.length).filter fun i =>
    decide (1 ≤ i) &&
    decide (4 * max (medians.getD i 0) (1e-6 : α) < flux.getD i 0) &&
    decide (flux.getD (i - 1) 0 ≤ flux.getD i 0) &&
    decide (flux.getD (i + 1) 0 ≤ flux.getD i 0)

/-- `computeBandFrequencies(numBands, sampleRate)`: logarithmically
interpolated band edges between 20 Hz and `min(20000, nyquist)`.  Pairs are
`(low, high)`; `Math.pow` on doubles is idealised as real `rpow`. -/
noncomputable def computeBandFrequencies (numBands : ℕ) (sampleRate : ℝ) :
    List (ℝ × ℝ) :=
  let minFreq : ℝ := 20
  let nyquist : ℝ := max 20 (sampleRate / 2)
  let maxFreq : ℝ := max minFreq (min 20000 nyquist)
  List.ofFn (n := numBands) fun i =>
    (minFreq * (maxFreq / minFreq) ^ (((i : ℕ) : ℝ) / (numBands : ℝ)),
     minFreq * (maxFreq / minFreq) ^ ((((i : ℕ) : ℝ) + 1) / (numBands : ℝ)))

/-- `computeBandBinRanges(bandFrequencies, sampleRate, fftSize, numBins)`:
clamp `⌊low / binWidth⌋` into `[0, numBins-1]` and `⌊high / binWidth⌋` into
`[lowBin, numBins-1]`. -/
noncomputable def computeBandBinRanges (bandFrequencies : List (ℝ × ℝ))
    (sampleRate : ℝ) (fftSize : ℕ) (numBins : ℕ) : List (ℤ × ℤ) :=
  let binWidth : ℝ := sampleRate / (fftSize : ℝ)
  bandFrequencies.map fun band =>
    let lowBin := clampInt ⌊band.1 / binWidth⌋ 0 ((numBins : ℤ) - 1)
    (lowBin, clampInt ⌊band.2 / binWidth⌋ lowBin ((numBins : ℤ) - 1))

/-- A bin is covered when some band's inclusive bin range contains it. -/
def coveredBy (ranges : List (ℤ × ℤ)) (bin : ℤ) : Prop :=
  ∃ r ∈ ranges, r.1 ≤ bin ∧ bin ≤ r.2

/-- JavaScript `TypedArray.fill(value, start, stop)`: write `value` into the
half-open index range `[start, stop)`, clipped to the array bounds. -/
def listFill (l : List ℤ) (value : ℤ) (start stop : ℕ) : List ℤ :=
  List.ofFn (n := l.length) fun i =>
    if start ≤ (i : ℕ) ∧ (i : ℕ) < stop then value else l.getD i 0

/-- `writeBandFrame(destination, frameIndex, magnitudes, peak, bandRanges)`:
for a silent frame (`peak ≤ EPSILON`) zero-fill the frame's row; otherwise
write each band's byte `clampInt(round(sqrt(min(1, average/peak)) * 255))`
into the row.  Byte cells are modelled as `ℤ` (always clamped to
`[0, 255]`). -/
noncomputable def writeBandFrame (destination : List ℤ) (frameIndex : ℕ)
    (magnitudes : List ℝ) (peak : ℝ) (bandRanges : List (ℤ × ℤ)) : List ℤ :=
  let offset := frameIndex * bandRanges.length
  if peak ≤ EPSILON then
    listFill destination 0 offset (offset + bandRanges.length)
  else
    (List.range bandRanges.length).foldl (fun dest bandIndex =>
      let range := bandRanges.getD bandIndex (0, 0)
      let count := range.2 - range.1 + 1
      let sum := ∑ j ∈ Finset.range count.toNat,
        magnitudes.getD (range.1 + (j : ℤ)).toNat 0
      let average := sum / (count : ℝ)
      let normalized := min 1 (average / peak)
      dest.set (offset + bandIndex)
        (clampInt (jsRound (Real.sqrt normalized * 255)) 0 255)) destination

/-- `createSpectrogramTiles(numFrames, numBins, tileSize)`: zero-initialised
byte tiles of `min(tileSize, framesLeft) * numBins` cells each. -/
def createSpectrogramTiles (numFrames numBins tileSize : ℕ) : List (List ℤ) :=
  let tileCount := max 1 ((numFrames + tileSize - 1) / tileSize)
  (List.range tileCount).map fun tile =>
    List.replicate (min tileSize (numFrames - tile * tileSize) * numBins) 0

/-- `writeSpectrogramFrame(tiles, frameIndex, magnitudes, peak, numBins,
tileSize)`: locate the frame's tile and row; for a silent frame zero-fill
the row, otherwise store each bin's dB-mapped byte. -/
noncomputable def writeSpectrogramFrame (tiles : List (List ℤ))
    (frameIndex : ℕ) (magnitudes : List ℝ) (peak : ℝ)
    (numBins tileSize : ℕ) : List (List ℤ) :=
  let tileIndex := frameIndex / tileSize
  let frameInTile := frameIndex % tileSize
  let rowOffset := frameInTile * numBins
  match tiles.get? tileIndex with
  | none => tiles
  | some tile =>
    if peak ≤ EPSILON then
      tiles.set tileIndex (listFill tile 0 rowOffset (rowOffset + numBins))
    else
      tiles.set tileIndex ((List.range numBins).foldl (fun t bin =>
        let ratio := magnitudes.getD bin 0 / peak
        let db := 20 * Real.logb 10 (max ratio EPSILON)
        let normalized := (db - SPECTROGRAM_MIN_DB) / (-SPECTROGRAM_MIN_DB)
        t.set (rowOffset + bin)
          (clampInt (jsRound (normalized * 255)) 0 255)) tile)

theorem detectOnsets_mem_iff {α : Type} [LinearOrderedField α]
    (flux medians : List α) (i : ℕ) :
    i ∈ detectOnsets flux medians ↔
      1 ≤ i ∧ i < flux.length ∧
      4 * max (medians.getD i 0) (1e-6 : α) < flux.getD i 0 ∧
      flux.getD (i - 1) 0 ≤ flux.getD i 0 ∧
      flux.getD (i + 1) 0 ≤ flux.getD i 0 := by
  simp only [detectOnsets, List.mem_filter, List.mem_range, Bool.and_eq_true,
    decide_eq_true_eq]
  tauto

/-- The 32-bit pattern JavaScript's `ToInt32` gives a nonnegative integer:
the operands of `&` are truncated to their low 32 bits, and `x & y === 0`
holds exactly when the truncated patterns AND to zero. -/
def wrap32 (n : ℕ) : ℕ :=
  n % 4294967296

/-- `isPowerOfTwo(value)` from `src/lib/fft.js`:
`value > 1 && (value & (value - 1)) === 0`, where `>` compares the exact
numeric values but `&` operates on the `ToInt32`-truncated low 32 bits. -/
def isPowerOfTwo (n : ℕ) : Bool :=
  decide (1 < n) && decide (wrap32 n &&& wrap32 (n - 1) = 0)

/-- Reversal of the low `k` bits of `x` (the permutation computed by the
source's incremented bit-reversed counter loop; the `i < j` guard makes the
swap pass apply the involution `x ↦ bitRev k x` exactly once per index). -/
def bitRev : ℕ → ℕ → ℕ
  | 0, _ => 0
  | k + 1, x => 2 * bitRev k (x % 2 ^ k) + x / 2 ^ k

/-- Twiddle factor `cos[tw] + sign*sin[tw]*I` at table index `tw = i*stride`,
`stride = size/step`, from the cached tables built by `buildTwiddles`:
`cos[t] = cos(2πt/size)`, `sin[t] = sign*sin(2πt/size)` with `sign = +1` for
the inverse direction and `-1` for the forward direction. -/
noncomputable def twiddle (sign : ℝ) (size step i : ℕ) : ℂ :=
  let angle : ℝ := 2 * Real.pi * ((i : ℝ) * ((size : ℝ) / (step : ℝ))) / (size : ℝ)
  ⟨Real.cos angle, sign * Real.sin angle⟩

/-- One butterfly pass of the iterative radix-2 loop at block width `step`:
positions `even = block + i` and `odd = even + step/2` are rewritten to
`even + w*odd` and `even - w*odd`.  Each output position depends on exactly
the two input positions of its own pair, so the in-place pass is the
pointwise map below. -/
noncomputable def butterflyStage (sign : ℝ) (size step : ℕ) (l : List ℂ) :
    List ℂ :=
  List.ofFn (n := size) fun x =>
    let halfStep := step / 2
    let i := (x : ℕ) % step
    if i < halfStep then
      l.getD x 0 + twiddle sign size step i * l.getD ((x : ℕ) + halfStep) 0
    else
      l.getD ((x : ℕ) - halfStep) 0 -
        twiddle sign size step (i - halfStep) * l.getD x 0

/-- The body of `fft(re, im, inverse)` after validation: bit-reversal
permutation followed by the butterfly passes for
`step = 2, 4, ..., size` (`size.log2` passes). -/
noncomputable def fftMain (sign : ℝ) (l : List ℂ) : List ℂ :=
  let size := l.length
  let permuted := List.ofFn (n := size) fun x =>
    l.getD (bitRev size.log2 (x : ℕ)) 0
  (List.range size.log2).foldl
    (fun acc j => butterflyStage sign size (2 ^ (j + 1)) acc) permuted

/-- `fft(re, im, inverse)` without its validation guards: pack `re`/`im`
into complex values, run the in-place algorithm, scale by `1/size` for the
inverse direction, and unpack. -/
noncomputable def fftPure (re im : List ℝ) (inverse : Bool) :
    List ℝ × List ℝ :=
  let size := re.length
  let sign : ℝ := if inverse then 1 else -1
  let v : List ℂ := List.zipWith (fun a b => (⟨a, b⟩ : ℂ)) re im
  let out := fftMain sign v
  let out := if inverse then
      out.map (fun z => (⟨((size : ℝ))⁻¹ * z.re, ((size : ℝ))⁻¹ * z.im⟩ : ℂ))
    else out
  (out.map Complex.re, out.map Complex.im)

/-- `fft(re, im, inverse)` from `src/lib/fft.js`: throws when the arrays
have different lengths, then when the length is not a power of two; the
twiddle-table cache is a pure memoisation and is modelled by recomputing the
table values. -/
noncomputable def fft (re im : List ℝ) (inverse : Bool) :
    Except String (List ℝ × List ℝ) :=
  if im.length ≠ re.length then
    .error "FFT arrays must have matching lengths."
  else if ¬ isPowerOfTwo re.length then
    .error "FFT length must be a power of two."
  else
    .ok (fftPure re im inverse)

/-- Elements of a list at even positions. -/
def evens {α : Type} : List α → List α
  | [] => []
  | [a] => [a]
  | a :: _ :: rest => a :: evens rest

/-- Elements of a list at odd positions. -/
def odds {α : Type} (l : List α) : List α :=
  evens l.tail

/-- Unit-modulus exponential `exp(θ * I)` for a real angle. -/
noncomputable def cexpI (θ : ℝ) : ℂ :=
  Complex.exp ((θ : ℂ) * Complex.I)

/-- Canonical twiddle base `exp(sign * 2π/n * I)`. -/
noncomputable def Wc (sign : ℝ) (n : ℕ) : ℂ :=
  cexpI (sign * (2 * Real.pi / (n : ℝ)))

/-- Butterfly pass with explicit twiddle base `w` (proof-side normal form of
`butterflyStage`; the table twiddle at index `i` collapses to `w ^ i`). -/
noncomputable def stageC (w : ℂ) (step : ℕ) (l : List ℂ) : List ℂ :=
  List.ofFn (n := l.length) fun x =>
    let halfStep := step / 2
    let i := (x : ℕ) % step
    if i < halfStep then
      l.getD x 0 + w ^ i * l.getD ((x : ℕ) + halfStep) 0
    else
      l.getD ((x : ℕ) - halfStep) 0 - w ^ (i - halfStep) * l.getD x 0

/-- The first `k` butterfly passes with canonical twiddles. -/
noncomputable def stagesC (sign : ℝ) (k : ℕ) (l : List ℂ) : List ℂ :=
  (List.range k).foldl (fun acc j => stageC (Wc sign (2 ^ (j + 1))) (2 ^ (j + 1)) acc) l

/-- Bit-reversal permutation of a length-`2^k` list. -/
noncomputable def permList (k : ℕ) (l : List ℂ) : List ℂ :=
  List.ofFn (n := 2 ^ k) fun x => l.getD (bitRev k (x : ℕ)) 0

/-- Discrete Fourier transform with twiddle base `w`:
`out[j] = Σ_t l[t] * w^(j*t)`. -/
noncomputable def dftl (w : ℂ) (l : List ℂ) : List ℂ :=
  (List.range l.length).map fun j =>
    ∑ t ∈ Finset.range l.length, l.getD t 0 * w ^ (j * t)

/-- `computeWaveformLODs(samples, scales)`: per scale, one `(min, max)` pair
of floats per bucket of `scale` samples (the final bucket may be shorter);
an empty bucket would store `(0, 0)` via the `Number.isFinite` guard on the
`Infinity` seeds, modelled by the empty-chunk match arm. -/
noncomputable def computeWaveformLODs (samples : List ℝ) (scales : List ℕ) :
    List (List ℝ) :=
  scales.map fun scale =>
    let chunkCount := (samples.length + scale - 1) / scale
    ((List.range chunkCount).map fun chunk =>
      let start := chunk * scale
      let stop := min samples.length (start + scale)
      match (samples.drop start).take (stop - start) with
      | [] => [(0 : ℝ), 0]
      | x :: xs => [xs.foldl min x, xs.foldl max x]).flatten

/-- `computeRmsEnvelope(samples, numFrames, hopSize)`: RMS of the raw
samples in `[frame*hop, min(len, frame*hop+hop))`, `0` when the frame start
is past the buffer end. -/
noncomputable def computeRmsEnvelope (samples : List ℝ)
    (numFrames hopSize : ℕ) : List ℝ :=
  List.ofFn (n := numFrames) fun frame =>
    let start := (frame : ℕ) * hopSize
    if samples.length ≤ start then 0
    else
      let stop := min samples.length (start + hopSize)
      let sumSquares := ∑ i ∈ Finset.range (stop - start),
        (let v := samples.getD (start + i) 0; v * v)
      Real.sqrt (sumSquares / ((max 1 (stop - start) : ℕ) : ℝ))

/-- `createHannWindow(size)`: `0.5 * (1 - cos(2πi/(size-1)))`. -/
noncomputable def createHannWindow (size : ℕ) : List ℝ :=
  List.ofFn (n := size) fun i =>
    0.5 * (1 - Real.cos (2 * Real.pi * ((i : ℕ) : ℝ) / ((size : ℝ) - 1)))

/-- `fillWindowedSignal(target, samples, start, fftSize, window)`:
`samples[start+i] * window[i]`, zero-padded past the buffer end. -/
noncomputable def fillWindowedSignal (samples : List ℝ) (start fftSize : ℕ)
    (window : List ℝ) : List ℝ :=
  List.ofFn (n := fftSize) fun i =>
    if start + (i : ℕ) < samples.length then
      samples.getD (start + (i : ℕ)) 0 * window.getD (i : ℕ) 0
    else 0

/-- `fillMagnitudes(re, im, out)`: per-bin `hypot(re, im)`, idealised as
`sqrt(re² + im²)`. -/
noncomputable def fillMagnitudes (re im : List ℝ) (numBins : ℕ) : List ℝ :=
  List.ofFn (n := numBins) fun i =>
    Real.sqrt (re.getD (i : ℕ) 0 * re.getD (i : ℕ) 0 +
      im.getD (i : ℕ) 0 * im.getD (i : ℕ) 0)

/-- The running peak tracked by `fillMagnitudes` (seed `0`, updated on
strict increase). -/
noncomputable def listPeak (magnitudes : List ℝ) : ℝ :=
  magnitudes.foldl (fun peak m => if peak < m then m else peak) 0

/-- `computePhaseCorrelation(left, right, numFrames, hopSize)`: per hop
window, `Σ(L·R) / sqrt(ΣL²·ΣR²)` clamped to `[-1, 1]`, `0` for a
degenerate denominator or a frame past the buffer end. -/
noncomputable def computePhaseCorrelation (left right : List ℝ)
    (numFrames hopSize : ℕ) : List ℝ :=
  List.ofFn (n := numFrames) fun frame =>
    let start := (frame : ℕ) * hopSize
    if left.length ≤ start then 0
    else
      let stop := min left.length (start + hopSize)
      let sumProduct := ∑ i ∈ Finset.range (stop - start),
        left.getD (start + i) 0 * right.getD (start + i) 0
      let sumLeftSquares := ∑ i ∈ Finset.range (stop - start),
        (let v := left.getD (start + i) 0; v * v)
      let sumRightSquares := ∑ i ∈ Finset.range (stop - start),
        (let v := right.getD (start + i) 0; v * v)
      let denominator := Real.sqrt (sumLeftSquares * sumRightSquares)
      if denominator ≤ EPSILON then 0
      else max (-1) (min 1 (sumProduct / denominator))

/-- A fault event.  `message` strings (presentation-only `toFixed`
formatting) are not modelled; all other fields are kept. -/
structure Fault where
  type : String
  severity : String
  frameStart : ℕ
  frameEnd : ℕ
  crestFactorDb : Option ℝ

/-- `detectClippingFaults`: CRIT fault per run of at least two consecutive
samples with `|L| ≥ 0.99 or |R| ≥ 0.99`, frame range derived by
`floor(sample / hopSize)`; an open run is flushed at the end. -/
noncomputable def detectClippingFaults (left right : List ℝ)
    (hopSize : ℕ) : List Fault :=
  let clipped := fun i : ℕ =>
    (0.99 : ℝ) ≤ |left.getD i 0| ∨ (0.99 : ℝ) ≤ |right.getD i 0|
  let step := fun (st : Option ℕ × List Fault) (i : ℕ) =>
    if clipped i then
      match st.1 with
      | none => (some i, st.2)
      | some s => (some s, st.2)
    else
      match st.1 with
      | none => (none, st.2)
      | some s =>
        (none,
          if 2 ≤ i - s then
            st.2 ++ [⟨"clipping", "CRIT", s / hopSize, (i - 1) / hopSize, none⟩]
          else st.2)
  match (List.range left.length).foldl step (none, []) with
  | (none, faults) => faults
  | (some s, faults) =>
      if 2 ≤ left.length - s then
        faults ++
          [⟨"clipping", "CRIT", s / hopSize, (left.length - 1) / hopSize, none⟩]
      else faults

/-- `detectSilenceFaults`: WARN per run of combined RMS below `0.001`
lasting at least `ceil(0.5·sampleRate/hopSize)` frames. -/
noncomputable def detectSilenceFaults (rmsLeft rmsRight : List ℝ)
    (sampleRate : ℚ) (hopSize : ℕ) : List Fault :=
  let minFrames := max 1 (⌈(1 / 2 : ℚ) * sampleRate / (hopSize : ℚ)⌉.toNat)
  let combined := List.ofFn (n := rmsLeft.length) fun i =>
    0.5 * (rmsLeft.getD (i : ℕ) 0 + rmsRight.getD (i : ℕ) 0)
  (collectRuns combined (fun v _ => decide (v < 0.001)) minFrames).map
    fun r => ⟨"silence", "WARN", r.1, r.2, none⟩

/-- `detectDcOffsetFault`: one INFO fault spanning the whole track when the
mean of the per-sample channel average exceeds `0.01` in magnitude. -/
noncomputable def detectDcOffsetFault (left right : List ℝ)
    (numFrames : ℕ) : List Fault :=
  let sum := ∑ i ∈ Finset.range left.length,
    0.5 * (left.getD i 0 + right.getD i 0)
  let mean := sum / (left.length : ℝ)
  if 0.01 < |mean| then [⟨"dc_offset", "INFO", 0, numFrames - 1, none⟩]
  else []

/-- `detectSpectralAnomalies`: WARN per run (length ≥ 1) of flux above
`4 * max(median, 1e-6)`. -/
noncomputable def detectSpectralAnomalies (flux medians : List ℝ) :
    List Fault :=
  (collectRuns flux
      (fun v i => decide (4 * max (medians.getD i 0) (1e-6 : ℝ) < v)) 1).map
    fun r => ⟨"spectral_anomaly", "WARN", r.1, r.2, none⟩

/-- `detectPhaseInversionFaults`: WARN per run of correlation below `-0.5`
lasting at least `ceil(0.2·sampleRate/hopSize)` frames. -/
noncomputable def detectPhaseInversionFaults (phaseCorrelation : List ℝ)
    (sampleRate : ℚ) (hopSize : ℕ) : List Fault :=
  let minFrames := max 1 (⌈(1 / 5 : ℚ) * sampleRate / (hopSize : ℚ)⌉.toNat)
  (collectRuns phaseCorrelation (fun v _ => decide (v < -(1 / 2 : ℝ)))
      minFrames).map
    fun r => ⟨"phase_inversion", "WARN", r.1, r.2, none⟩

/-- `detectDynamicRangeFault`: always exactly one INFO fault carrying the
crest factor `20·log10(peak / max(rms, ε))` (`0` when `peak ≤ ε`). -/
noncomputable def detectDynamicRangeFault (left right : List ℝ)
    (numSamples numFrames : ℕ) : List Fault :=
  let peak := (List.range numSamples).foldl
    (fun peak i => max peak (max |left.getD i 0| |right.getD i 0|)) 0
  let sumSquares := ∑ i ∈ Finset.range numSamples,
    0.5 * (left.getD i 0 * left.getD i 0 + right.getD i 0 * right.getD i 0)
  let rms := Real.sqrt (sumSquares / ((max 1 numSamples : ℕ) : ℝ))
  let crestFactor := if peak ≤ EPSILON then 0
    else 20 * Real.logb 10 (peak / max rms EPSILON)
  [⟨"dynamic_range", "INFO", 0, numFrames - 1, some crestFactor⟩]

/-- `detectMonoSegmentFaults`: INFO per run of `L−R` difference RMS below
`0.0001` lasting at least `ceil(2·sampleRate/hopSize)` frames. -/
noncomputable def detectMonoSegmentFaults (left right : List ℝ)
    (numFrames : ℕ) (sampleRate : ℚ) (hopSize : ℕ) : List Fault :=
  let diffRmsByFrame := List.ofFn (n := numFrames) fun frame =>
    let start := (frame : ℕ) * hopSize
    if left.length ≤ start then 0
    else
      let stop := min left.length (start + hopSize)
      let sumSquares := ∑ i ∈ Finset.range (stop - start),
        (let diff := left.getD (start + i) 0 - right.getD (start + i) 0
         diff * diff)
      Real.sqrt (sumSquares / ((max 1 (stop - start) : ℕ) : ℝ))
  let minFrames := max 1 (⌈(2 : ℚ) * sampleRate / (hopSize : ℚ)⌉.toNat)
  (collectRuns diffRmsByFrame (fun v _ => decide (v < 0.0001)) minFrames).map
    fun r => ⟨"mono_segment", "INFO", r.1, r.2, none⟩

/-- `detectFaults(...)`: the seven rule evaluators, results concatenated in
insertion order. -/
noncomputable def detectFaults (left right : List ℝ)
    (numSamples numFrames : ℕ) (sampleRate : ℚ) (hopSize : ℕ)
    (rmsLeft rmsRight spectralFlux fluxMedians phaseCorrelation : List ℝ) :
    List Fault :=
  detectClippingFaults left right hopSize ++
  detectSilenceFaults rmsLeft rmsRight sampleRate hopSize ++
  detectDcOffsetFault left right numFrames ++
  detectSpectralAnomalies spectralFlux fluxMedians ++
  detectPhaseInversionFaults phaseCorrelation sampleRate hopSize ++
  detectDynamicRangeFault left right numSamples numFrames ++
  detectMonoSegmentFaults left right numFrames sampleRate hopSize

/-- The worker message payload (`event.data`).  `left`/`right` are decoded
channel buffers; configuration fields may be absent (`none` also covers
non-numeric JS values, which coerce to `NaN` and take the same default
path).  `hopSize`/`numBands`/`numSamples` are modelled as integers. -/
structure Payload where
  left : List ℝ
  right : Option (List ℝ)
  sampleRate : Option ℚ
  fftSize : Option ℚ
  hopSize : Option ℤ
  numBands : Option ℤ
  numSamples : Option ℤ

/-- `sanitizePowerOfTwo(value, fallback)`: return the fallback unless the
value is an integer `≥ 2` (exact numeric tests) passing the
`(parsed & (parsed - 1)) !== 0` check, whose `&` — like the one in
`isPowerOfTwo` — operates on the `ToInt32`-truncated low 32 bits; a value
passing all three tests is returned unchanged, even when the truncation
makes the `&` test miss a non-power-of-two such as `2^32 + 2^31`.  The
result is returned as `ℕ` (it is `≥ 2` in every branch). -/
def sanitizePowerOfTwo (value : Option ℚ) (fallback : ℕ) : ℕ :=
  match value with
  | none => fallback
  | some q =>
    if q.den ≠ 1 then fallback
    else if q.num < 2 then fallback
    else if wrap32 q.num.toNat &&& wrap32 (q.num.toNat - 1) ≠ 0 then fallback
    else q.num.toNat

/-- `payload.right ? toFloat32Array(payload.right) : new Float32Array(left)`:
an absent right channel becomes a copy of the left channel. -/
def resolveRight (p : Payload) : List ℝ :=
  match p.right with
  | some r => r
  | none => p.left

/-- `Number(payload.sampleRate) || 44100` (`0`/`NaN`/absent fall back). -/
def defaultedSampleRate (p : Payload) : ℚ :=
  match p.sampleRate with
  | none => 44100
  | some q => if q = 0 then 44100 else q

/-- `Math.max(1, Number(payload.hopSize) || 512)`. -/
def defaultedHopSize (p : Payload) : ℕ :=
  match p.hopSize with
  | none => 512
  | some z => if z = 0 then 512 else (max 1 z).toNat

/-- `Math.max(1, Number(payload.numBands) || 40)`. -/
def defaultedNumBands (p : Payload) : ℕ :=
  match p.numBands with
  | none => 40
  | some z => if z = 0 then 40 else (max 1 z).toNat

/-- The effective sample count: the payload's `numSamples` when finite and
positive, else the shorter channel length; then clamped by both channel
lengths. -/
def effectiveNumSamples (p : Payload) : ℕ :=
  let right := resolveRight p
  let lens : ℤ := min (p.left.length : ℤ) (right.length : ℤ)
  let ns0 : ℤ := match p.numSamples with
    | some n => if n ≤ 0 then lens else n
    | none => lens
  (min ns0 lens).toNat

/-- The validated inputs of `runPrecompute` after defaulting, sanitising
and truncation. -/
structure Prepared where
  left : List ℝ
  right : List ℝ
  sampleRate : ℚ
  fftSize : ℕ
  hopSize : ℕ
  numBands : ℕ
  numSamples : ℕ

/-- The validation prefix of `runPrecompute`: resolve the channels, apply
the defaults, compute the effective sample count, abort when it is below 1,
and truncate both channels to it (`slice(0, numSamples)`). -/
def validateAndPrepare (p : Payload) : Except String Prepared :=
  let ns := effectiveNumSamples p
  if ns < 1 then .error "Audio payload has no samples."
  else .ok {
    left := p.left.take ns
    right := (resolveRight p).take ns
    sampleRate := defaultedSampleRate p
    fftSize := sanitizePowerOfTwo p.fftSize 2048
    hopSize := defaultedHopSize p
    numBands := defaultedNumBands p
    numSamples := ns }

/-- `numFrames = Math.max(1, Math.floor((numSamples - fftSize) / hopSize) + 1)`
(floor division of a possibly negative numerator). -/
def numFramesOf (numSamples fftSize hopSize : ℕ) : ℕ :=
  (max 1 (((numSamples : ℤ) - (fftSize : ℤ)).fdiv (hopSize : ℤ) + 1)).toNat

/-- The per-run constants of the STFT loop. -/
structure StftCtx where
  left : List ℝ
  right : List ℝ
  fftSize : ℕ
  hopSize : ℕ
  numBins : ℕ
  numBands : ℕ
  numFrames : ℕ
  hannWindow : List ℝ
  bandBinRanges : List (ℤ × ℤ)

/-- Derive the STFT constants (`numBins = fftSize >> 1`, band tables, Hann
window, frame count) from the validated inputs. -/
noncomputable def mkCtx (v : Prepared) : StftCtx :=
  let numBins := v.fftSize / 2
  let bandFrequencies := computeBandFrequencies v.numBands (v.sampleRate : ℝ)
  { left := v.left
    right := v.right
    fftSize := v.fftSize
    hopSize := v.hopSize
    numBins := numBins
    numBands := v.numBands
    numFrames := numFramesOf v.numSamples v.fftSize v.hopSize
    hannWindow := createHannWindow v.fftSize
    bandBinRanges := computeBandBinRanges bandFrequencies (v.sampleRate : ℝ)
      v.fftSize numBins }

/-- The mutable state threaded through the STFT loop.  The preallocated
`Float32Array(numFrames)` flux buffer, written once per frame in order, is
modelled as a list extended by one entry per frame. -/
structure StftState where
  bandsLeft : List ℤ
  bandsRight : List ℤ
  tilesLeft : List (List ℤ)
  tilesRight : List (List ℤ)
  spectralFlux : List ℝ
  prevMixed : List ℝ

/-- The zero-initialised loop state. -/
def initState (c : StftCtx) : StftState :=
  { bandsLeft := List.replicate (c.numFrames * c.numBands) 0
    bandsRight := List.replicate (c.numFrames * c.numBands) 0
    tilesLeft := createSpectrogramTiles c.numFrames c.numBins TILE_SIZE
    tilesRight := createSpectrogramTiles c.numFrames c.numBins TILE_SIZE
    spectralFlux := []
    prevMixed := List.replicate c.numBins 0 }

/-- One iteration of the STFT loop with the transform guards already
discharged (`fftPure`): window both channels, transform, take magnitudes
and peaks, write band and spectrogram rows, update the mixed-magnitude
double buffer and append the frame's flux. -/
noncomputable def stftStepPure (c : StftCtx) (st : StftState) (frame : ℕ) :
    StftState :=
  let frameStart := frame * c.hopSize
  let reL := fillWindowedSignal c.left frameStart c.fftSize c.hannWindow
  let imL := List.replicate c.fftSize (0 : ℝ)
  let outL := fftPure reL imL false
  let magsL := fillMagnitudes outL.1 outL.2 c.numBins
  let peakL := listPeak magsL
  let reR := fillWindowedSignal c.right frameStart c.fftSize c.hannWindow
  let imR := List.replicate c.fftSize (0 : ℝ)
  let outR := fftPure reR imR false
  let magsR := fillMagnitudes outR.1 outR.2 c.numBins
  let peakR := listPeak magsR
  let mixed := List.ofFn (n := c.numBins) fun bin =>
    0.5 * (magsL.getD (bin : ℕ) 0 + magsR.getD (bin : ℕ) 0)
  let fluxSum : ℝ := if frame = 0 then 0 else
    ∑ bin ∈ Finset.range c.numBins,
      max 0 (mixed.getD bin 0 - st.prevMixed.getD bin 0)
  { bandsLeft := writeBandFrame st.bandsLeft frame magsL peakL c.bandBinRanges
    bandsRight := writeBandFrame st.bandsRight frame magsR peakR c.bandBinRanges
    tilesLeft := writeSpectrogramFrame st.tilesLeft frame magsL peakL
      c.numBins TILE_SIZE
    tilesRight := writeSpectrogramFrame st.tilesRight frame magsR peakR
      c.numBins TILE_SIZE
    spectralFlux := st.spectralFlux ++ [fluxSum / (c.numBins : ℝ)]
    prevMixed := mixed }

/-- One iteration of the STFT loop as executed, propagating any `fft`
error. -/
noncomputable def stftStep (c : StftCtx) (st : StftState) (frame : ℕ) :
    Except String StftState :=
  let frameStart := frame * c.hopSize
  let reL := fillWindowedSignal c.left frameStart c.fftSize c.hannWindow
  let imL := List.replicate c.fftSize (0 : ℝ)
  match fft reL imL false with
  | .error e => .error e
  | .ok outL =>
    let magsL := fillMagnitudes outL.1 outL.2 c.numBins
    let peakL := listPeak magsL
    let reR := fillWindowedSignal c.right frameStart c.fftSize c.hannWindow
    let imR := List.replicate c.fftSize (0 : ℝ)
    match fft reR imR false with
    | .error e => .error e
    | .ok outR =>
      let magsR := fillMagnitudes outR.1 outR.2 c.numBins
      let peakR := listPeak magsR
      let mixed := List.ofFn (n := c.numBins) fun bin =>
        0.5 * (magsL.getD (bin : ℕ) 0 + magsR.getD (bin : ℕ) 0)
      let fluxSum : ℝ := if frame = 0 then 0 else
        ∑ bin ∈ Finset.range c.numBins,
          max 0 (mixed.getD bin 0 - st.prevMixed.getD bin 0)
      .ok
        { bandsLeft := writeBandFrame st.bandsLeft frame magsL peakL
            c.bandBinRanges
          bandsRight := writeBandFrame st.bandsRight frame magsR peakR
            c.bandBinRanges
          tilesLeft := writeSpectrogramFrame st.tilesLeft frame magsL peakL
            c.numBins TILE_SIZE
          tilesRight := writeSpectrogramFrame st.tilesRight frame magsR peakR
            c.numBins TILE_SIZE
          spectralFlux := st.spectralFlux ++ [fluxSum / (c.numBins : ℝ)]
          prevMixed := mixed }

/-- The result bundle returned by `runPrecompute`. -/
structure Bundle where
  sampleRate : ℚ
  numSamples : ℕ
  numFrames : ℕ
  duration : ℚ
  fftSize : ℕ
  hopSize : ℕ
  numBands : ℕ
  waveformLODsLeft : List (List ℝ)
  waveformLODsRight : List (List ℝ)
  waveformScales : List ℕ
  rmsLeft : List ℝ
  rmsRight : List ℝ
  bandsLeft : List ℤ
  bandsRight : List ℤ
  spectralFlux : List ℝ
  onsets : List ℕ
  phaseCorrelation : List ℝ
  spectrogramTilesLeft : List (List ℤ)
  spectrogramTilesRight : List (List ℤ)
  tileSize : ℕ
  faults : List Fault
  bandFrequencies : List (ℝ × ℝ)

/-- Assemble the result bundle from the validated inputs, STFT constants
and final loop state (the stages after the STFT loop: running median,
onsets, phase correlation, faults). -/
noncomputable def assembleBundle (v : Prepared) (c : StftCtx)
    (st : StftState) : Bundle :=
  let fluxMedians := computeRunningMedian st.spectralFlux 10
  let rmsLeft := computeRmsEnvelope v.left c.numFrames v.hopSize
  let rmsRight := computeRmsEnvelope v.right c.numFrames v.hopSize
  let phaseCorrelation := computePhaseCorrelation v.left v.right
    c.numFrames v.hopSize
  { sampleRate := v.sampleRate
    numSamples := v.numSamples
    numFrames := c.numFrames
    duration := (v.numSamples : ℚ) / v.sampleRate
    fftSize := v.fftSize
    hopSize := v.hopSize
    numBands := v.numBands
    waveformLODsLeft := computeWaveformLODs v.left WAVEFORM_SCALES
    waveformLODsRight := computeWaveformLODs v.right WAVEFORM_SCALES
    waveformScales := WAVEFORM_SCALES
    rmsLeft := rmsLeft
    rmsRight := rmsRight
    bandsLeft := st.bandsLeft
    bandsRight := st.bandsRight
    spectralFlux := st.spectralFlux
    onsets := detectOnsets st.spectralFlux fluxMedians
    phaseCorrelation := phaseCorrelation
    spectrogramTilesLeft := st.tilesLeft
    spectrogramTilesRight := st.tilesRight
    tileSize := TILE_SIZE
    faults := detectFaults v.left v.right v.numSamples c.numFrames
      v.sampleRate v.hopSize rmsLeft rmsRight st.spectralFlux fluxMedians
      phaseCorrelation
    bandFrequencies := computeBandFrequencies v.numBands (v.sampleRate : ℝ) }

/-- `runPrecompute(payload)`: validate, run the STFT loop (propagating any
`fft` error), and assemble the result bundle. -/
noncomputable def runPrecompute (p : Payload) : Except String Bundle :=
  match validateAndPrepare p with
  | .error e => .error e
  | .ok v =>
    let c := mkCtx v
    match (List.range c.numFrames).foldlM (stftStep c) (initState c) with
    | .error e => .error e
    | .ok st => .ok (assembleBundle v c st)

/-- The bundle produced by a successful run, as a total function of the
validated inputs (the `fft` guards never fire inside the loop; see
`runPrecompute_eq`). -/
noncomputable def pureBundle (v : Prepared) : Bundle :=
  let c := mkCtx v
  assembleBundle v c
    ((List.range c.numFrames).foldl (stftStepPure c) (initState c))

/-- `postProgress(percent)`: `Math.max(0, Math.min(100, Math.round p))`. -/
def postProgressValue (q : ℚ) : ℤ :=
  max 0 (min 100 (jsRound q))

/-- The raw percent values posted inside the STFT loop, one per frame with
`(frame & 31) === 0 || frame === numFrames - 1`:
`20 + ((frame + 1) / numFrames) * 50`. -/
def stftCheckpoints (numFrames : ℕ) : List ℚ :=
  ((List.range numFrames).filter fun frame =>
    decide (frame &&& 31 = 0) || decide (frame = numFrames - 1)).map
    fun frame => 20 + (((frame : ℚ) + 1) / (numFrames : ℚ)) * 50

/-- The full sequence of percent values posted by `runPrecompute` on a
successful run, in program order: the fixed checkpoints
`2, 10, 20, 21` before the loop, the in-loop checkpoints, and
`75, 80, 85, 95, 100` after, each passed through `postProgress`. -/
def progressPercents (numFrames : ℕ) : List ℤ :=
  (([2, 10, 20, 21] ++ stftCheckpoints numFrames ++ [75, 80, 85, 95, 100]).map
    postProgressValue)

/-- The frame count of a payload's run (`0` for a rejected payload). -/
def effectiveNumFrames (p : Payload) : ℕ :=
  match validateAndPrepare p with
  | .error _ => 0
  | .ok v => numFramesOf v.numSamples v.fftSize v.hopSize

theorem listFill_length (l : List ℤ) (value : ℤ) (start stop : ℕ) :
    (listFill l value start stop).length = l.length := by
  simp [listFill]

theorem listFill_getD (l : List ℤ) (value : ℤ) (start stop i : ℕ)
    (hi : i < l.length) :
    (listFill l value start stop).getD i 0 =
      if start ≤ i ∧ i < stop then value else l.getD i 0 := by
  have hlen : i < (listFill l value start stop).length := by
    rw [listFill_length]; exact hi
  rw [List.getD_eq_getElem _ _ hlen]
  simp [listFill, List.getElem?_eq_getElem hi]

/-- Interval cover: in a list of well-formed ranges whose consecutive ranges
overlap or touch, every point between the first range's left end and the last
range's right end is covered. -/
theorem coveredBy_of_chain (rs : List (ℤ × ℤ))
    (hwf : ∀ r ∈ rs, r.1 ≤ r.2)
    (hchain : List.Chain' (fun a b => b.1 ≤ a.2) rs) :
    ∀ (r0 rN : ℤ × ℤ), rs.head? = some r0 → rs.getLast? = some rN →
      ∀ bin : ℤ, r0.1 ≤ bin → bin ≤ rN.2 → coveredBy rs bin := by
  induction rs with
  | nil => intro r0 rN h0; simp at h0
  | cons a t ih =>
    intro r0 rN h0 hN bin hlow hhigh
    simp only [List.head?_cons, Option.some.injEq] at h0
    subst h0
    rcases t with _ | ⟨b, t'⟩
    · simp only [List.getLast?_singleton, Option.some.injEq] at hN
      subst hN
      exact ⟨a, List.mem_cons_self a _, hlow, hhigh⟩
    · by_cases hcase : bin ≤ a.2
      · exact ⟨a, List.mem_cons_self a _, hlow, hcase⟩
      · push_neg at hcase
        have hchain' : List.Chain' (fun a b => b.1 ≤ a.2) (b :: t') :=
          (List.chain'_cons.mp hchain).2
        have hb : b.1 ≤ a.2 := (List.chain'_cons.mp hchain).1
        have hN' : (b :: t').getLast? = some rN := by
          simpa [List.getLast?_cons_cons] using hN
        have hcov := ih (fun r hr => hwf r (List.mem_cons_of_mem _ hr)) hchain'
          b rN (by simp) hN' bin (le_trans hb (le_of_lt hcase)) hhigh
        obtain ⟨r, hrmem, hr1, hr2⟩ := hcov
        exact ⟨r, List.mem_cons_of_mem _ hrmem, hr1, hr2⟩

theorem computeBandBinRanges_wf (bandFrequencies : List (ℝ × ℝ))
    (sampleRate : ℝ) (fftSize numBins : ℕ) :
    ∀ r ∈ computeBandBinRanges bandFrequencies sampleRate fftSize numBins,
      r.1 ≤ r.2 := by
  intro r hr
  simp only [computeBandBinRanges, List.mem_map] at hr
  obtain ⟨band, _, rfl⟩ := hr
  exact le_max_left _ _

theorem computeBandBinRanges_chain (numBands : ℕ) (sampleRate : ℝ)
    (fftSize numBins : ℕ) :
    List.Chain' (fun a b => b.1 ≤ a.2)
      (computeBandBinRanges (computeBandFrequencies numBands sampleRate)
        sampleRate fftSize numBins) := by
  rw [computeBandBinRanges, computeBandFrequencies]
  rw [List.chain'_map]
  rw [List.chain'_iff_get]
  intro i hi
  simp only [List.get_ofFn, List.length_ofFn] at hi ⊢
  have hedge :
      ((((i + 1 : ℕ) : ℝ)) / (numBands : ℝ)) = ((((i : ℕ) : ℝ) + 1) / (numBands : ℝ)) := by
    push_cast
    ring
  simp only [Fin.coe_cast, Fin.val_mk]
  rw [hedge]
  simp only [clampInt]
  exact max_le_max (le_max_left _ _) le_rfl

/-- Helper evaluation: with one band at the default 44100 Hz / 2048-point
configuration the single bin range is `[0, 928]` (20 Hz to 20 kHz), while
`numBins = 1024`. -/
theorem bandBinRanges_default_single :
    computeBandBinRanges (computeBandFrequencies 1 44100) 44100 2048 1024 =
      [(0, 928)] := by
  rw [show computeBandFrequencies 1 44100 = [(20, 20000)] by
    norm_num [computeBandFrequencies, List.ofFn_succ]]
  norm_num [computeBandBinRanges, clampInt]

theorem detectOnsets_pairwise {α : Type} [LinearOrderedField α]
    (flux medians : List α) :
    List.Pairwise (· < ·) (detectOnsets flux medians) :=
  List.Pairwise.sublist (List.filter_sublist _) (List.pairwise_lt_range _)

theorem detectOnsets_lt_length {α : Type} [LinearOrderedField α]
    (flux medians : List α) :
    ∀ i ∈ detectOnsets flux medians, i < flux.length := by
  intro i hi
  exact List.mem_range.mp (List.mem_of_mem_filter hi)

/-- Helper evaluation: the running median of the flux signal `[0, 0, 1]` is
`[0, 0, 0]` (every centred window is the whole array, whose sorted middle
element is `0`). -/
theorem median_zero_zero_one :
    computeRunningMedian (α := ℚ) [0, 0, 1] 10 = [0, 0, 0] := by
  norm_num [computeRunningMedian, List.ofFn_succ, List.range_succ,
    List.insertionSort, List.orderedInsert]

/-- Claim C4 (amended): every bin lying between band 0's low bin and the last
band's high bin is covered by at least one band's inclusive bin range, for
every configuration.  (Bins outside that window — below 20 Hz or above
`min(20000, nyquist)` — are not covered, which refutes the original
`[0, numBins)` phrasing.) -/
theorem bands_cover_low_to_high_edge (numBands : ℕ) (sampleRate : ℝ)
    (fftSize numBins : ℕ) (r0 rN : ℤ × ℤ)
    (h0 : (computeBandBinRanges (computeBandFrequencies numBands sampleRate)
      sampleRate fftSize numBins).head? = some r0)
    (hN : (computeBandBinRanges (computeBandFrequencies numBands sampleRate)
      sampleRate fftSize numBins).getLast? = some rN)
    (bin : ℤ) (hlo : r0.1 ≤ bin) (hhi : bin ≤ rN.2) :
    coveredBy (computeBandBinRanges (computeBandFrequencies numBands sampleRate)
      sampleRate fftSize numBins) bin :=
  coveredBy_of_chain _
    (computeBandBinRanges_wf _ _ _ _)
    (computeBandBinRanges_chain numBands sampleRate fftSize numBins)
    r0 rN h0 hN bin hlo hhi

/-- Claim C4 witness: in the one-band 44100 Hz / 2048-point configuration the
bin range runs from bin 0 to bin 928, and bin 500 in between is covered. -/
theorem bands_cover_low_to_high_edge_witness :
    coveredBy (computeBandBinRanges (computeBandFrequencies 1 44100)
      44100 2048 1024) 500 :=
  bands_cover_low_to_high_edge 1 44100 2048 1024 (0, 928) (0, 928)
    (by rw [bandBinRanges_default_single]; rfl)
    (by rw [bandBinRanges_default_single]; rfl)
    500 (by norm_num) (by norm_num)

/-- Claim C4 counterexample: with `numBands = 1`, `sampleRate = 44100`,
`fftSize = 2048` the bin count is `numBins = 1024`, yet bin 1023 (whose
frequency is above 20 kHz) lies in no band's bin range: the mapper does not
cover all of `[0, numBins)`. -/
theorem bands_miss_top_bin :
    (0 : ℤ) ≤ 1023 ∧ (1023 : ℤ) < 1024 ∧
    ¬ coveredBy (computeBandBinRanges (computeBandFrequencies 1 44100)
      44100 2048 1024) 1023 := by
  refine ⟨by norm_num, by norm_num, ?_⟩
  rw [bandBinRanges_default_single]
  rintro ⟨r, hr, h1, h2⟩
  simp only [List.mem_singleton] at hr
  subst hr
  omega

/-- Claim C6 (amended): the onset detector never reports frame 0, and a frame
`i` is reported iff `1 ≤ i < numFrames`, its flux exceeds
`4 * max(median, 1e-6)`, and its flux is `≥` both neighbours where a missing
neighbour is read as flux `0` (`getD _ 0`); in particular the last frame can
be reported, since its missing right neighbour compares as `0`. -/
theorem detectOnsets_boundary {α : Type} [LinearOrderedField α]
    (flux medians : List α) :
    0 ∉ detectOnsets flux medians ∧
    ∀ i : ℕ, i ∈ detectOnsets flux medians ↔
      1 ≤ i ∧ i < flux.length ∧
      4 * max (medians.getD i 0) (1e-6 : α) < flux.getD i 0 ∧
      flux.getD (i - 1) 0 ≤ flux.getD i 0 ∧
      flux.getD (i + 1) 0 ≤ flux.getD i 0 := by
  constructor
  · intro h
    exact absurd ((detectOnsets_mem_iff flux medians 0).mp h).1 (by norm_num)
  · exact detectOnsets_mem_iff flux medians

/-- Claim C6 witness: on the flux signal `[0, 0, 1]` with its running
medians, frame `2` (the last frame) satisfies the onset conditions. -/
theorem detectOnsets_boundary_witness :
    2 ∈ detectOnsets (α := ℚ) [0, 0, 1] (computeRunningMedian [0, 0, 1] 10) :=
  ((detectOnsets_boundary (α := ℚ) [0, 0, 1]
      (computeRunningMedian [0, 0, 1] 10)).2 2).mpr
    (by rw [median_zero_zero_one]; norm_num)

/-- Claim C6 counterexample: on the flux signal `[0, 0, 1]` the detector
reports exactly frame `2`, which is the last frame (`numFrames - 1 = 2`): the
boundary frame at the right end is not excluded. -/
theorem detectOnsets_reports_last_frame :
    detectOnsets (α := ℚ) [0, 0, 1] (computeRunningMedian [0, 0, 1] 10) = [2] ∧
    ([(0 : ℚ), 0, 1] : List ℚ).length - 1 = 2 := by
  constructor
  · rw [median_zero_zero_one]
    norm_num [detectOnsets, List.range_succ, List.filter_append, List.filter]
  · rfl

/-- Claim C7: for a frame whose peak magnitude is at most `EPSILON`, the
band writer and the spectrogram writer take the zero-fill branch: every one
of the frame's band bytes and spectrogram cells is stored as `0` (the
normalising divisions by `peak` are never evaluated), and the destination
length is unchanged. -/
theorem silent_frame_writes_zero (dest : List ℤ) (f : ℕ) (mags : List ℝ)
    (peak : ℝ) (ranges : List (ℤ × ℤ)) (tiles : List (List ℤ))
    (tile : List ℤ) (numBins tileSize : ℕ) (hpeak : peak ≤ EPSILON) :
    (writeBandFrame dest f mags peak ranges).length = dest.length ∧
    (∀ b, b < ranges.length → f * ranges.length + b < dest.length →
      (writeBandFrame dest f mags peak ranges).getD
        (f * ranges.length + b) 0 = 0) ∧
    (tiles.get? (f / tileSize) = some tile →
      ∀ b, b < numBins → (f % tileSize) * numBins + b < tile.length →
        ((writeSpectrogramFrame tiles f mags peak numBins tileSize).getD
          (f / tileSize) []).getD ((f % tileSize) * numBins + b) 0 = 0) := by
  have hband : writeBandFrame dest f mags peak ranges =
      listFill dest 0 (f * ranges.length) (f * ranges.length + ranges.length) := by
    rw [writeBandFrame]
    exact if_pos hpeak
  refine ⟨?_, ?_, ?_⟩
  · rw [hband, listFill_length]
  · intro b hb hlt
    rw [hband, listFill_getD _ _ _ _ _ hlt, if_pos ⟨by omega, by omega⟩]
  · intro hget b hb hlt
    have htlt : f / tileSize < tiles.length := by
      rcases List.get?_eq_some.mp hget with ⟨h, _⟩
      exact h
    have htile : writeSpectrogramFrame tiles f mags peak numBins tileSize =
        tiles.set (f / tileSize)
          (listFill tile 0 ((f % tileSize) * numBins)
            ((f % tileSize) * numBins + numBins)) := by
      rw [writeSpectrogramFrame, hget]
      exact if_pos hpeak
    rw [htile]
    have hset : (tiles.set (f / tileSize)
        (listFill tile 0 ((f % tileSize) * numBins)
          ((f % tileSize) * numBins + numBins))).getD (f / tileSize) [] =
        listFill tile 0 ((f % tileSize) * numBins)
          ((f % tileSize) * numBins + numBins) := by
      rw [List.getD_eq_getElem _ _ (by simpa using htlt)]
      exact List.getElem_set_self _
    rw [hset, listFill_getD _ _ _ _ _ hlt, if_pos ⟨by omega, by omega⟩]

/-- Claim C7 witness: with `peak = 0 ≤ EPSILON`, frame 1, two one-bin bands
and a four-byte destination, bytes 2 and 3 of the band matrix are written as
`0`, and cell `(row 1, bin 0)` of the (single, four-cell) spectrogram tile is
written as `0`. -/
theorem silent_frame_writes_zero_witness :
    (writeBandFrame [7, 7, 7, 7] 1 [] 0 [(0, 0), (0, 0)]).getD 2 0 = 0 ∧
    ((writeSpectrogramFrame [[9, 9, 9, 9]] 1 [] 0 2 1000).getD 0 []).getD 2 0
      = 0 := by
  have h := silent_frame_writes_zero [7, 7, 7, 7] 1 [] 0 [(0, 0), (0, 0)]
    [[9, 9, 9, 9]] [9, 9, 9, 9] 2 1000 (by norm_num [EPSILON])
  refine ⟨?_, ?_⟩
  · have := h.2.1 0 (by norm_num) (by norm_num)
    simpa using this
  · have := h.2.2 rfl 0 (by norm_num) (by norm_num)
    simpa using this

theorem stageC_length (w : ℂ) (step : ℕ) (l : List ℂ) :
    (stageC w step l).length = l.length := by
  simp [stageC]

theorem stagesC_length (sign : ℝ) (k : ℕ) (l : List ℂ) :
    (stagesC sign k l).length = l.length := by
  induction k generalizing l with
  | zero => simp [stagesC]
  | succ k ih =>
    rw [stagesC, List.range_succ, List.foldl_append]
    simp only [List.foldl_cons, List.foldl_nil]
    rw [stageC_length]
    exact ih l

theorem stagesC_succ (sign : ℝ) (k : ℕ) (l : List ℂ) :
    stagesC sign (k + 1) l =
      stageC (Wc sign (2 ^ (k + 1))) (2 ^ (k + 1)) (stagesC sign k l) := by
  rw [stagesC, List.range_succ, List.foldl_append]
  rfl

theorem permList_length (k : ℕ) (l : List ℂ) :
    (permList k l).length = 2 ^ k := by
  simp [permList]

theorem dftl_length (w : ℂ) (l : List ℂ) : (dftl w l).length = l.length := by
  simp [dftl]

theorem evens_length {α : Type} : ∀ l : List α,
    (evens l).length = (l.length + 1) / 2
  | [] => by simp [evens]
  | [a] => by simp [evens]
  | a :: b :: rest => by
    simp only [evens, List.length_cons, evens_length rest]
    omega

theorem odds_length {α : Type} (l : List α) :
    (odds l).length = l.length / 2 := by
  cases l with
  | nil => simp [odds, evens]
  | cons a t =>
    simp only [odds, List.tail_cons, evens_length, List.length_cons]

theorem evens_getD {α : Type} (d : α) : ∀ (l : List α) (s : ℕ),
    (evens l).getD s d = l.getD (2 * s) d
  | [], s => by simp [evens]
  | [a], s => by
    cases s with
    | zero => simp [evens]
    | succ s =>
      have h1 : (evens [a]).getD (s + 1) d = d :=
        List.getD_eq_default _ _ (by simp [evens])
      have h2 : [a].getD (2 * (s + 1)) d = d :=
        List.getD_eq_default _ _ (by simp; omega)
      rw [h1, h2]
  | a :: b :: rest, s => by
    cases s with
    | zero => simp [evens]
    | succ s =>
      have h2 : 2 * (s + 1) = (2 * s + 1) + 1 := by omega
      rw [h2]
      simp only [evens, List.getD_cons_succ]
      exact evens_getD d rest s

theorem odds_getD {α : Type} (d : α) (l : List α) (s : ℕ) :
    (odds l).getD s d = l.getD (2 * s + 1) d := by
  cases l with
  | nil => simp [odds, evens]
  | cons a t =>
    simp only [odds, List.tail_cons, List.getD_cons_succ]
    exact evens_getD d t s

theorem bitRev_lt : ∀ (k x : ℕ), x < 2 ^ k → bitRev k x < 2 ^ k
  | 0, x, h => by simp [bitRev]
  | k + 1, x, h => by
    have h1 : bitRev k (x % 2 ^ k) < 2 ^ k :=
      bitRev_lt k _ (Nat.mod_lt _ (Nat.pos_pow_of_pos k (by norm_num)))
    have h2 : x / 2 ^ k < 2 := by
      have hp : (2 : ℕ) ^ (k + 1) = 2 * 2 ^ k := by ring
      rw [Nat.div_lt_iff_lt_mul (Nat.pos_pow_of_pos k (by norm_num))]
      omega
    simp only [bitRev]
    have : (2 : ℕ) ^ (k + 1) = 2 * 2 ^ k := by ring
    omega

theorem bitRev_first_half (k x : ℕ) (h : x < 2 ^ k) :
    bitRev (k + 1) x = 2 * bitRev k x := by
  simp only [bitRev, Nat.mod_eq_of_lt h, Nat.div_eq_of_lt h, Nat.add_zero]

theorem bitRev_second_half (k x : ℕ) (h : x < 2 ^ k) :
    bitRev (k + 1) (2 ^ k + x) = 2 * bitRev k x + 1 := by
  have hmod : (2 ^ k + x) % 2 ^ k = x := by
    rw [Nat.add_mod_left, Nat.mod_eq_of_lt h]
  have hdiv : (2 ^ k + x) / 2 ^ k = 1 := by
    rw [Nat.add_div_left x (Nat.pos_pow_of_pos k (by norm_num)),
      Nat.div_eq_of_lt h]
  simp only [bitRev, hmod, hdiv]

theorem cexpI_pow (θ : ℝ) (i : ℕ) : cexpI θ ^ i = cexpI ((i : ℝ) * θ) := by
  rw [cexpI, cexpI, ← Complex.exp_nat_mul]
  congr 1
  push_cast
  ring

theorem cexpI_of_sign (sign a : ℝ) (h : sign = 1 ∨ sign = -1) :
    (⟨Real.cos a, sign * Real.sin a⟩ : ℂ) = cexpI (sign * a) := by
  have hbase : ∀ b : ℝ, cexpI b = (⟨Real.cos b, Real.sin b⟩ : ℂ) := by
    intro b
    rw [cexpI, Complex.exp_mul_I, Complex.mk_eq_add_mul_I,
      ← Complex.ofReal_cos, ← Complex.ofReal_sin]
  rcases h with rfl | rfl
  · rw [hbase, one_mul, one_mul]
  · rw [hbase]
    apply Complex.ext <;> simp

theorem twiddle_eq (sign : ℝ) (size step i : ℕ)
    (h : sign = 1 ∨ sign = -1) (hstep : 0 < step) (hsize : 0 < size) :
    twiddle sign size step i = Wc sign step ^ i := by
  have hstep' : (step : ℝ) ≠ 0 := Nat.cast_ne_zero.mpr (by omega)
  have hsize' : (size : ℝ) ≠ 0 := Nat.cast_ne_zero.mpr (by omega)
  have hA : 2 * Real.pi * ((i : ℝ) * ((size : ℝ) / (step : ℝ))) / (size : ℝ)
      = (i : ℝ) * (2 * Real.pi / (step : ℝ)) := by
    field_simp
    ring
  simp only [twiddle]
  rw [Wc, cexpI_pow, hA]
  rw [show (i : ℝ) * (sign * (2 * Real.pi / (step : ℝ)))
      = sign * ((i : ℝ) * (2 * Real.pi / (step : ℝ))) by ring]
  exact cexpI_of_sign sign _ h

theorem Wc_ne_zero (sign : ℝ) (n : ℕ) : Wc sign n ≠ 0 :=
  Complex.exp_ne_zero _

theorem cexpI_two_pi (sign : ℝ) (h : sign = 1 ∨ sign = -1) :
    cexpI (sign * (2 * Real.pi)) = 1 := by
  rcases h with rfl | rfl
  · rw [cexpI]
    have : (((1 : ℝ) * (2 * Real.pi) : ℝ) : ℂ) * Complex.I
        = (1 : ℤ) * (2 * (Real.pi : ℂ) * Complex.I) := by push_cast; ring
    rw [this, Complex.exp_int_mul_two_pi_mul_I]
  · rw [cexpI]
    have : ((((-1 : ℝ)) * (2 * Real.pi) : ℝ) : ℂ) * Complex.I
        = (-1 : ℤ) * (2 * (Real.pi : ℂ) * Complex.I) := by push_cast; ring
    rw [this, Complex.exp_int_mul_two_pi_mul_I]

theorem Wc_pow_self (sign : ℝ) (n : ℕ) (h : sign = 1 ∨ sign = -1)
    (hn : n ≠ 0) : Wc sign n ^ n = 1 := by
  rw [Wc, cexpI_pow]
  have hne : (n : ℝ) ≠ 0 := Nat.cast_ne_zero.mpr hn
  rw [show (n : ℝ) * (sign * (2 * Real.pi / (n : ℝ))) = sign * (2 * Real.pi) by
    field_simp]
  exact cexpI_two_pi sign h

theorem Wc_sq (sign : ℝ) (n : ℕ) (hn : n ≠ 0) :
    Wc sign (2 * n) ^ 2 = Wc sign n := by
  rw [Wc, cexpI_pow, Wc]
  congr 1
  have hne : (n : ℝ) ≠ 0 := Nat.cast_ne_zero.mpr hn
  push_cast
  field_simp
  ring

theorem Wc_pow_half (sign : ℝ) (n : ℕ) (h : sign = 1 ∨ sign = -1)
    (hn : n ≠ 0) : Wc sign (2 * n) ^ n = -1 := by
  rw [Wc, cexpI_pow]
  have hne : (n : ℝ) ≠ 0 := Nat.cast_ne_zero.mpr hn
  rw [show (n : ℝ) * (sign * (2 * Real.pi / ((2 * n : ℕ) : ℝ))) = sign * Real.pi by
    push_cast; field_simp; ring]
  rcases h with rfl | rfl
  · rw [cexpI, one_mul]
    exact Complex.exp_pi_mul_I
  · rw [cexpI]
    have hc : (((-1 : ℝ) * Real.pi : ℝ) : ℂ) * Complex.I
        = -((Real.pi : ℂ) * Complex.I) := by push_cast; ring
    rw [hc, Complex.exp_neg, Complex.exp_pi_mul_I]
    norm_num

theorem Wc_one_eq_inv (n : ℕ) : Wc 1 n = (Wc (-1) n)⁻¹ := by
  rw [Wc, Wc, cexpI, cexpI, ← Complex.exp_neg]
  congr 1
  push_cast
  ring

theorem butterflyStage_length (sign : ℝ) (size step : ℕ) (l : List ℂ) :
    (butterflyStage sign size step l).length = size := by
  simp [butterflyStage]

theorem log2_two_pow : ∀ k : ℕ, (2 ^ k).log2 = k
  | 0 => by simp [Nat.log2]
  | k + 1 => by
    rw [Nat.log2]
    have h2 : 2 ≤ 2 ^ (k + 1) := by
      calc (2 : ℕ) = 2 ^ 1 := (pow_one 2).symm
        _ ≤ 2 ^ (k + 1) := Nat.pow_le_pow_right (by norm_num) (by omega)
    rw [if_pos h2]
    have hdiv : 2 ^ (k + 1) / 2 = 2 ^ k := by
      rw [pow_succ, Nat.mul_div_cancel _ (by norm_num)]
    rw [hdiv, log2_two_pow k]

theorem butterflyStage_eq_stageC (sign : ℝ) (size step : ℕ) (l : List ℂ)
    (h : sign = 1 ∨ sign = -1) (hstep : 0 < step) (hsize : 0 < size)
    (hlen : l.length = size) :
    butterflyStage sign size step l = stageC (Wc sign step) step l := by
  subst hlen
  refine congrArg List.ofFn (funext fun x => ?_)
  simp only [butterflyStage, stageC]
  by_cases hx : (x : ℕ) % step < step / 2
  · rw [if_pos hx, if_pos hx, twiddle_eq sign _ step _ h hstep (by omega)]
  · rw [if_neg hx, if_neg hx, twiddle_eq sign _ step _ h hstep (by omega)]

theorem foldl_butterfly_eq_stagesC (sign : ℝ) (k : ℕ)
    (h : sign = 1 ∨ sign = -1) :
    ∀ (js : List ℕ) (l : List ℂ), l.length = 2 ^ k →
      js.foldl (fun acc j => butterflyStage sign (2 ^ k) (2 ^ (j + 1)) acc) l =
      js.foldl (fun acc j => stageC (Wc sign (2 ^ (j + 1))) (2 ^ (j + 1)) acc) l := by
  intro js
  induction js with
  | nil => intro l _; rfl
  | cons j js ih =>
    intro l hlen
    simp only [List.foldl_cons]
    rw [butterflyStage_eq_stageC sign (2 ^ k) (2 ^ (j + 1)) l h
      (Nat.pos_pow_of_pos _ (by norm_num)) (Nat.pos_pow_of_pos _ (by norm_num))
      hlen]
    exact ih _ (by rw [stageC_length, hlen])

theorem fftMain_eq_stagesC (sign : ℝ) (k : ℕ) (l : List ℂ)
    (h : sign = 1 ∨ sign = -1) (hlen : l.length = 2 ^ k) :
    fftMain sign l = stagesC sign k (permList k l) := by
  rw [fftMain]
  simp only [hlen, log2_two_pow]
  rw [foldl_butterfly_eq_stagesC sign k h (List.range k) _ (by simp [permList])]
  rfl

theorem block_bound (step m x : ℕ) (hstep : 0 < step) (hdvd : step ∣ m)
    (hx : x < m) (hmod : x % step < step / 2) : x + step / 2 < m := by
  obtain ⟨c, rfl⟩ := hdvd
  have hdm := Nat.div_add_mod x step
  have hq : x / step < c := by
    rw [Nat.div_lt_iff_lt_mul hstep]
    calc x < step * c := hx
      _ = c * step := by ring
  have hmul : step * (x / step + 1) ≤ step * c := Nat.mul_le_mul_left _ (by omega)
  have hexp : step * (x / step + 1) = step * (x / step) + step := by ring
  omega

theorem list_ext_getD {α : Type} (d : α) {l₁ l₂ : List α}
    (hlen : l₁.length = l₂.length)
    (h : ∀ y, y < l₁.length → l₁.getD y d = l₂.getD y d) : l₁ = l₂ := by
  apply List.ext_getElem hlen
  intro i h1 h2
  have hi := h i h1
  rwa [List.getD_eq_getElem _ _ h1, List.getD_eq_getElem _ _ h2] at hi

theorem stageC_getD (w : ℂ) (step : ℕ) (l : List ℂ) (y : ℕ)
    (hy : y < l.length) :
    (stageC w step l).getD y 0 =
      if y % step < step / 2 then
        l.getD y 0 + w ^ (y % step) * l.getD (y + step / 2) 0
      else
        l.getD (y - step / 2) 0 - w ^ (y % step - step / 2) * l.getD y 0 := by
  rw [List.getD_eq_getElem _ _ (by rw [stageC_length]; exact hy)]
  simp only [stageC, List.getElem_ofFn]

theorem stageC_append (w : ℂ) (step : ℕ) (a b : List ℂ) (hstep : 0 < step)
    (hdvd : step ∣ a.length) (hlen : b.length = a.length) :
    stageC w step (a ++ b) = stageC w step a ++ stageC w step b := by
  apply list_ext_getD (0 : ℂ)
  · simp [stageC_length]
  intro y hy
  rw [stageC_length, List.length_append] at hy
  have hyab : y < (a ++ b).length := by simpa using hy
  rw [stageC_getD _ _ _ _ hyab]
  rcases Nat.lt_or_ge y a.length with hfirst | hsecond
  · have hrhs := List.getD_append (stageC w step a) (stageC w step b) 0 y
      (by rw [stageC_length]; exact hfirst)
    rw [hrhs, stageC_getD _ _ _ _ hfirst]
    by_cases hcond : y % step < step / 2
    · rw [if_pos hcond, if_pos hcond,
        List.getD_append a b 0 y hfirst,
        List.getD_append a b 0 (y + step / 2)
          (block_bound step a.length y hstep hdvd hfirst hcond)]
    · rw [if_neg hcond, if_neg hcond,
        List.getD_append a b 0 y hfirst,
        List.getD_append a b 0 (y - step / 2) (by omega)]
  · obtain ⟨c, hc⟩ := hdvd
    have hby : y - a.length < b.length := by omega
    have hmod2 : ∀ z : ℕ, (a.length + z) % step = z % step := by
      intro z
      rw [hc]
      exact Nat.mul_add_mod step c z
    have hmodeq : y % step = (y - a.length) % step := by
      conv_lhs => rw [show y = a.length + (y - a.length) by omega]
      rw [hmod2]
    have hrhs := List.getD_append_right (stageC w step a) (stageC w step b) 0 y
      (by rw [stageC_length]; exact hsecond)
    rw [stageC_length] at hrhs
    rw [hrhs, stageC_getD _ _ _ _ hby, hmodeq]
    by_cases hcond : (y - a.length) % step < step / 2
    · rw [if_pos hcond, if_pos hcond]
      have h1 := List.getD_append_right a b 0 y hsecond
      have h2 := List.getD_append_right a b 0 (y + step / 2) (by omega)
      rw [h1, h2, show y + step / 2 - a.length = y - a.length + step / 2 by omega]
    · rw [if_neg hcond, if_neg hcond]
      have hhalf : step / 2 ≤ (y - a.length) % step := by omega
      have hyhalf : step / 2 ≤ y - a.length :=
        le_trans hhalf (Nat.mod_le _ _)
      have h1 := List.getD_append_right a b 0 y hsecond
      have h2 := List.getD_append_right a b 0 (y - step / 2) (by omega)
      rw [h1, h2, show y - step / 2 - a.length = y - a.length - step / 2 by omega]

theorem stagesC_append (sign : ℝ) : ∀ (k m : ℕ) (a b : List ℂ),
    a.length = m → b.length = m → (∀ j, j < k → 2 ^ (j + 1) ∣ m) →
    stagesC sign k (a ++ b) = stagesC sign k a ++ stagesC sign k b := by
  intro k
  induction k with
  | zero => intro m a b _ _ _; rfl
  | succ k ih =>
    intro m a b ha hb hdvd
    rw [stagesC_succ, stagesC_succ, stagesC_succ]
    rw [ih m a b ha hb (fun j hj => hdvd j (by omega))]
    exact stageC_append _ _ _ _ (Nat.pos_pow_of_pos _ (by norm_num))
      (by rw [stagesC_length, ha]; exact hdvd k (by omega))
      (by rw [stagesC_length, stagesC_length, ha, hb])

theorem permList_getD (k : ℕ) (l : List ℂ) (y : ℕ) (hy : y < 2 ^ k) :
    (permList k l).getD y 0 = l.getD (bitRev k y) 0 := by
  rw [List.getD_eq_getElem _ _ (by rw [permList_length]; exact hy)]
  simp only [permList, List.getElem_ofFn]

theorem evens_length_pow (k : ℕ) (l : List ℂ) (hlen : l.length = 2 ^ (k + 1)) :
    (evens l).length = 2 ^ k := by
  rw [evens_length, hlen, pow_succ]
  omega

theorem odds_length_pow (k : ℕ) (l : List ℂ) (hlen : l.length = 2 ^ (k + 1)) :
    (odds l).length = 2 ^ k := by
  rw [odds_length, hlen, pow_succ]
  omega

theorem permList_split (k : ℕ) (l : List ℂ) :
    permList (k + 1) l = permList k (evens l) ++ permList k (odds l) := by
  apply list_ext_getD (0 : ℂ)
  · rw [permList_length, List.length_append, permList_length, permList_length,
      pow_succ]
    omega
  intro y hy
  rw [permList_length] at hy
  rw [permList_getD _ _ _ hy]
  rcases Nat.lt_or_ge y (2 ^ k) with hfirst | hsecond
  · have hrhs := List.getD_append (permList k (evens l)) (permList k (odds l))
      0 y (by rw [permList_length]; exact hfirst)
    rw [hrhs, permList_getD _ _ _ hfirst, bitRev_first_half k y hfirst,
      evens_getD]
  · have hz : y - 2 ^ k < 2 ^ k := by
      have : (2 : ℕ) ^ (k + 1) = 2 ^ k + 2 ^ k := by rw [pow_succ]; omega
      omega
    obtain ⟨z, hzlt, rfl⟩ : ∃ z, z < 2 ^ k ∧ y = 2 ^ k + z :=
      ⟨y - 2 ^ k, hz, by omega⟩
    have hrhs := List.getD_append_right (permList k (evens l))
      (permList k (odds l)) 0 (2 ^ k + z)
      (by rw [permList_length]; exact hsecond)
    rw [permList_length] at hrhs
    rw [hrhs]
    simp only [Nat.add_sub_cancel_left]
    rw [permList_getD _ _ _ hzlt, bitRev_second_half k z hzlt, odds_getD]

theorem map_range_getD (n : ℕ) (f : ℕ → ℂ) (j : ℕ) (hj : j < n) :
    ((List.range n).map f).getD j 0 = f j := by
  rw [List.getD_eq_getElem _ _ (by simp; exact hj)]
  simp

theorem dftl_getD (w : ℂ) (l : List ℂ) (j : ℕ) (hj : j < l.length) :
    (dftl w l).getD j 0 =
      ∑ t ∈ Finset.range l.length, l.getD t 0 * w ^ (j * t) := by
  rw [dftl]
  exact map_range_getD _ _ _ hj

theorem sum_range_even_odd (f : ℕ → ℂ) : ∀ n : ℕ,
    ∑ t ∈ Finset.range (2 * n), f t =
      (∑ s ∈ Finset.range n, f (2 * s)) +
      (∑ s ∈ Finset.range n, f (2 * s + 1)) := by
  intro n
  induction n with
  | zero => simp
  | succ n ih =>
    rw [show 2 * (n + 1) = (2 * n + 1) + 1 by omega]
    rw [Finset.sum_range_succ, Finset.sum_range_succ, ih,
      Finset.sum_range_succ, Finset.sum_range_succ]
    ring

theorem stageC_dft_combine (sign : ℝ) (k : ℕ) (l : List ℂ)
    (h : sign = 1 ∨ sign = -1) (hlen : l.length = 2 ^ (k + 1)) :
    stageC (Wc sign (2 ^ (k + 1))) (2 ^ (k + 1))
      (dftl (Wc sign (2 ^ k)) (evens l) ++ dftl (Wc sign (2 ^ k)) (odds l)) =
    dftl (Wc sign (2 ^ (k + 1))) l := by
  have hne : (2 : ℕ) ^ k ≠ 0 := (Nat.pos_pow_of_pos k (by norm_num)).ne'
  have hpow : (2 : ℕ) ^ (k + 1) = 2 * 2 ^ k := by rw [pow_succ]; ring
  have hWsq : Wc sign (2 * 2 ^ k) ^ 2 = Wc sign (2 ^ k) :=
    Wc_sq sign (2 ^ k) hne
  have hWself : Wc sign (2 ^ k) ^ 2 ^ k = 1 := Wc_pow_self sign (2 ^ k) h hne
  have hWhalf : Wc sign (2 * 2 ^ k) ^ 2 ^ k = -1 := Wc_pow_half sign (2 ^ k) h hne
  have hmul2 : ∀ a : ℕ,
      Wc sign (2 * 2 ^ k) ^ (2 * a) = Wc sign (2 ^ k) ^ a := fun a => by
    rw [pow_mul, hWsq]
  have hself : ∀ a : ℕ, Wc sign (2 ^ k) ^ (2 ^ k * a) = 1 := fun a => by
    rw [pow_mul, hWself, one_pow]
  have hE : (evens l).length = 2 ^ k := evens_length_pow k l hlen
  have hO : (odds l).length = 2 ^ k := odds_length_pow k l hlen
  have hA : (dftl (Wc sign (2 ^ k)) (evens l)).length = 2 ^ k := by
    rw [dftl_length, hE]
  have hB : (dftl (Wc sign (2 ^ k)) (odds l)).length = 2 ^ k := by
    rw [dftl_length, hO]
  have hhalf : 2 ^ (k + 1) / 2 = 2 ^ k := by omega
  apply list_ext_getD (0 : ℂ)
  · rw [stageC_length, List.length_append, hA, hB, dftl_length, hlen]
    omega
  intro x hx
  rw [stageC_length, List.length_append, hA, hB] at hx
  have hx2 : x < 2 ^ (k + 1) := by omega
  have hxab : x < (dftl (Wc sign (2 ^ k)) (evens l) ++
      dftl (Wc sign (2 ^ k)) (odds l)).length := by
    rw [List.length_append, hA, hB]; omega
  rw [stageC_getD _ _ _ _ hxab, Nat.mod_eq_of_lt hx2, hhalf,
    dftl_getD _ _ _ (by rw [hlen]; exact hx2), hlen, hpow,
    sum_range_even_odd]
  rcases Nat.lt_or_ge x (2 ^ k) with hxlt | hxge
  · rw [if_pos hxlt]
    have g1 := List.getD_append (dftl (Wc sign (2 ^ k)) (evens l))
      (dftl (Wc sign (2 ^ k)) (odds l)) 0 x (by rw [hA]; exact hxlt)
    have g2 := List.getD_append_right (dftl (Wc sign (2 ^ k)) (evens l))
      (dftl (Wc sign (2 ^ k)) (odds l)) 0 (x + 2 ^ k) (by rw [hA]; omega)
    rw [hA] at g2
    simp only [Nat.add_sub_cancel] at g2
    rw [g1, g2, dftl_getD _ _ _ (by rw [hE]; exact hxlt),
      dftl_getD _ _ _ (by rw [hO]; exact hxlt), hE, hO]
    have e1 : (∑ s ∈ Finset.range (2 ^ k),
        l.getD (2 * s) 0 * Wc sign (2 * 2 ^ k) ^ (x * (2 * s))) =
        ∑ t ∈ Finset.range (2 ^ k),
          (evens l).getD t 0 * Wc sign (2 ^ k) ^ (x * t) := by
      refine Finset.sum_congr rfl fun s _ => ?_
      rw [← evens_getD]
      congr 1
      rw [show x * (2 * s) = 2 * (x * s) by ring, hmul2]
    have e2 : (∑ s ∈ Finset.range (2 ^ k),
        l.getD (2 * s + 1) 0 * Wc sign (2 * 2 ^ k) ^ (x * (2 * s + 1))) =
        ∑ t ∈ Finset.range (2 ^ k),
          (odds l).getD t 0 *
            (Wc sign (2 * 2 ^ k) ^ x * Wc sign (2 ^ k) ^ (x * t)) := by
      refine Finset.sum_congr rfl fun s _ => ?_
      rw [← odds_getD]
      congr 1
      rw [show x * (2 * s + 1) = x + 2 * (x * s) by ring, pow_add, hmul2]
    rw [e1, e2, Finset.mul_sum]
    congr 1
    refine Finset.sum_congr rfl fun t _ => ?_
    ring
  · rw [if_neg (by omega)]
    obtain ⟨z, hzlt, rfl⟩ : ∃ z, z < 2 ^ k ∧ x = 2 ^ k + z :=
      ⟨x - 2 ^ k, by omega, by omega⟩
    simp only [Nat.add_sub_cancel_left]
    have g1 := List.getD_append (dftl (Wc sign (2 ^ k)) (evens l))
      (dftl (Wc sign (2 ^ k)) (odds l)) 0 z (by rw [hA]; exact hzlt)
    have g2 := List.getD_append_right (dftl (Wc sign (2 ^ k)) (evens l))
      (dftl (Wc sign (2 ^ k)) (odds l)) 0 (2 ^ k + z) (by rw [hA]; omega)
    rw [hA] at g2
    simp only [Nat.add_sub_cancel_left] at g2
    rw [g1, g2, dftl_getD _ _ _ (by rw [hE]; exact hzlt),
      dftl_getD _ _ _ (by rw [hO]; exact hzlt), hE, hO]
    have e1 : (∑ s ∈ Finset.range (2 ^ k),
        l.getD (2 * s) 0 * Wc sign (2 * 2 ^ k) ^ ((2 ^ k + z) * (2 * s))) =
        ∑ t ∈ Finset.range (2 ^ k),
          (evens l).getD t 0 * Wc sign (2 ^ k) ^ (z * t) := by
      refine Finset.sum_congr rfl fun s _ => ?_
      rw [← evens_getD]
      congr 1
      rw [show (2 ^ k + z) * (2 * s) = 2 * (2 ^ k * s + z * s) by ring,
        hmul2, pow_add, hself, one_mul]
    have e2 : (∑ s ∈ Finset.range (2 ^ k),
        l.getD (2 * s + 1) 0 *
          Wc sign (2 * 2 ^ k) ^ ((2 ^ k + z) * (2 * s + 1))) =
        ∑ t ∈ Finset.range (2 ^ k),
          (odds l).getD t 0 *
            (-1 * (Wc sign (2 * 2 ^ k) ^ z * Wc sign (2 ^ k) ^ (z * t))) := by
      refine Finset.sum_congr rfl fun s _ => ?_
      rw [← odds_getD]
      congr 1
      rw [show (2 ^ k + z) * (2 * s + 1) = 2 ^ k + z + 2 * (2 ^ k * s + z * s)
          by ring,
        pow_add, pow_add, hWhalf, hmul2, pow_add, hself, one_mul]
      ring
    rw [e1, e2]
    have e3 : (∑ t ∈ Finset.range (2 ^ k),
        (odds l).getD t 0 *
          (-1 * (Wc sign (2 * 2 ^ k) ^ z * Wc sign (2 ^ k) ^ (z * t)))) =
        -(Wc sign (2 * 2 ^ k) ^ z *
          ∑ t ∈ Finset.range (2 ^ k),
            (odds l).getD t 0 * Wc sign (2 ^ k) ^ (z * t)) := by
      rw [Finset.mul_sum, ← Finset.sum_neg_distrib]
      refine Finset.sum_congr rfl fun t _ => ?_
      ring
    rw [e3]
    ring

/-- The iterative algorithm (bit-reversal permutation followed by the
butterfly passes with canonical twiddles) computes the discrete Fourier
transform, for every power-of-two length. -/
theorem stagesC_permList_eq_dftl (sign : ℝ) (h : sign = 1 ∨ sign = -1) :
    ∀ (k : ℕ) (l : List ℂ), l.length = 2 ^ k →
      stagesC sign k (permList k l) = dftl (Wc sign (2 ^ k)) l := by
  intro k
  induction k with
  | zero =>
    intro l hlen
    match l, hlen with
    | [a], _ =>
      simp [stagesC, permList, dftl, bitRev, List.ofFn_succ,
        Finset.sum_range_succ]
  | succ k ih =>
    intro l hlen
    rw [permList_split, stagesC_succ]
    rw [stagesC_append sign k (2 ^ k) _ _ (permList_length _ _)
      (permList_length _ _) (fun j hj => pow_dvd_pow 2 (by omega))]
    rw [ih (evens l) (evens_length_pow k l hlen),
      ih (odds l) (odds_length_pow k l hlen)]
    exact stageC_dft_combine sign k l h hlen

theorem Wc_zpow_ne_one (n : ℕ) (hn : 0 < n) (m : ℤ) (hm : m ≠ 0)
    (hmlt : m.natAbs < n) : Wc (-1) n ^ m ≠ 1 := by
  intro hone
  have hexp : Wc (-1) n ^ m
      = Complex.exp ((m : ℂ) * (((-1 : ℝ) * (2 * Real.pi / (n : ℝ)) : ℝ) * Complex.I)) := by
    rw [Wc, cexpI, ← Complex.exp_int_mul]
  rw [hexp, Complex.exp_eq_one_iff] at hone
  obtain ⟨c, hc⟩ := hone
  have hncast : ((n : ℝ)) ≠ 0 := Nat.cast_ne_zero.mpr (by omega)
  have him : (m : ℝ) * ((-1 : ℝ) * (2 * Real.pi / (n : ℝ)))
      = (c : ℝ) * (2 * Real.pi) := by
    have h0 := congrArg Complex.im hc
    simpa using h0
  have key : -((m : ℝ) / (n : ℝ)) = (c : ℝ) := by
    have h3 : (2 * Real.pi) * (-((m : ℝ) / (n : ℝ)))
        = (2 * Real.pi) * (c : ℝ) := by
      linear_combination him
    exact mul_left_cancel₀ (by positivity) h3
  have h4 : -(m : ℝ) = (c : ℝ) * (n : ℝ) := by
    field_simp at key
    linarith
  have h5 : -m = c * (n : ℤ) := by exact_mod_cast h4
  have hdvd : (n : ℤ) ∣ m := ⟨-c, by linear_combination -h5⟩
  have habs : (n : ℤ).natAbs ∣ m.natAbs := Int.natAbs_dvd_natAbs.mpr hdvd
  simp only [Int.natAbs_ofNat] at habs
  have := Nat.le_of_dvd (Int.natAbs_pos.mpr hm) habs
  omega

theorem geom_inner_sum (n : ℕ) (hn : 0 < n) (s j : ℕ) (hs : s < n)
    (hj : j < n) :
    ∑ t ∈ Finset.range n, (Wc (-1) n ^ ((s : ℤ) - (j : ℤ))) ^ t =
      if s = j then (n : ℂ) else 0 := by
  by_cases hsj : s = j
  · subst hsj
    simp
  · rw [if_neg hsj]
    set r : ℂ := Wc (-1) n ^ ((s : ℤ) - (j : ℤ)) with hr
    have hzne : Wc (-1) n ≠ 0 := Wc_ne_zero _ _
    have hrn : r ^ n = 1 := by
      rw [hr, ← zpow_natCast (Wc (-1) n ^ ((s : ℤ) - (j : ℤ))) n,
        ← zpow_mul, mul_comm, zpow_mul, zpow_natCast,
        Wc_pow_self (-1) n (Or.inr rfl) (by omega), one_zpow]
    have hrne : r ≠ 1 := by
      apply Wc_zpow_ne_one n hn
      · omega
      · omega
    rw [geom_sum_eq hrne n, hrn]
    simp

theorem dftl_getD_map_mul (n : ℕ) (l : List ℂ) (j : ℕ) (hj : j < l.length) :
    (l.map (fun z => (n : ℂ) * z)).getD j 0 = (n : ℂ) * l.getD j 0 := by
  rw [List.getD_eq_getElem _ _ (by simpa using hj),
    List.getD_eq_getElem _ _ hj, List.getElem_map]

/-- Fourier inversion at the list level: applying the transform with the
conjugate twiddle base to a transform undoes it up to the factor `n`. -/
theorem dftl_inverse (n : ℕ) (hn : 0 < n) (l : List ℂ) (hlen : l.length = n) :
    dftl (Wc 1 n) (dftl (Wc (-1) n) l) =
      l.map (fun z => (n : ℂ) * z) := by
  have hzne : Wc (-1) n ≠ 0 := Wc_ne_zero _ _
  have hinner : (dftl (Wc (-1) n) l).length = n := by rw [dftl_length, hlen]
  apply list_ext_getD (0 : ℂ)
  · rw [dftl_length, hinner, List.length_map, hlen]
  intro j hj
  rw [dftl_length, hinner] at hj
  rw [dftl_getD _ _ _ (by rw [hinner]; exact hj), hinner]
  have hstep1 : ∀ t, t < n →
      (dftl (Wc (-1) n) l).getD t 0 =
        ∑ s ∈ Finset.range n, l.getD s 0 * Wc (-1) n ^ (t * s) := by
    intro t ht
    rw [dftl_getD _ _ _ (by rw [hlen]; exact ht), hlen]
  rw [Finset.sum_congr rfl (fun t ht =>
    by rw [hstep1 t (Finset.mem_range.mp ht)])]
  have hterm : ∀ s t : ℕ,
      l.getD s 0 * Wc (-1) n ^ (t * s) * Wc 1 n ^ (j * t) =
      l.getD s 0 * (Wc (-1) n ^ ((s : ℤ) - (j : ℤ))) ^ t := by
    intro s t
    rw [mul_assoc]
    congr 1
    rw [Wc_one_eq_inv, inv_pow, ← zpow_natCast (Wc (-1) n) (t * s),
      ← zpow_natCast (Wc (-1) n) (j * t), ← zpow_neg,
      ← zpow_add₀ hzne,
      show ((t * s : ℕ) : ℤ) + -((j * t : ℕ) : ℤ)
        = ((s : ℤ) - (j : ℤ)) * (t : ℤ) by push_cast; ring,
      zpow_mul, zpow_natCast]
  calc (∑ t ∈ Finset.range n,
        (∑ s ∈ Finset.range n, l.getD s 0 * Wc (-1) n ^ (t * s)) *
          Wc 1 n ^ (j * t))
      = ∑ t ∈ Finset.range n, ∑ s ∈ Finset.range n,
          l.getD s 0 * Wc (-1) n ^ (t * s) * Wc 1 n ^ (j * t) := by
        refine Finset.sum_congr rfl fun t _ => ?_
        rw [Finset.sum_mul]
    _ = ∑ s ∈ Finset.range n, ∑ t ∈ Finset.range n,
          l.getD s 0 * Wc (-1) n ^ (t * s) * Wc 1 n ^ (j * t) :=
        Finset.sum_comm
    _ = ∑ s ∈ Finset.range n, l.getD s 0 *
          ∑ t ∈ Finset.range n, (Wc (-1) n ^ ((s : ℤ) - (j : ℤ))) ^ t := by
        refine Finset.sum_congr rfl fun s _ => ?_
        rw [Finset.mul_sum]
        exact Finset.sum_congr rfl fun t _ => hterm s t
    _ = ∑ s ∈ Finset.range n, l.getD s 0 * (if s = j then (n : ℂ) else 0) := by
        refine Finset.sum_congr rfl fun s hs => ?_
        rw [geom_inner_sum n hn s j (Finset.mem_range.mp hs) hj]
    _ = ∑ s ∈ Finset.range n, (if s = j then l.getD s 0 * (n : ℂ) else 0) := by
        refine Finset.sum_congr rfl fun s _ => ?_
        rw [mul_ite, mul_zero]
    _ = l.getD j 0 * (n : ℂ) := by
        rw [Finset.sum_ite_eq' (Finset.range n) j fun s => l.getD s 0 * (n : ℂ)]
        rw [if_pos (Finset.mem_range.mpr hj)]
    _ = (l.map (fun z => (n : ℂ) * z)).getD j 0 := by
        rw [dftl_getD_map_mul n l j (by rw [hlen]; exact hj)]
        ring

theorem isPowerOfTwo_two_pow (k : ℕ) (hk : 1 ≤ k) :
    isPowerOfTwo (2 ^ k) = true := by
  have hgt : 1 < 2 ^ k := by
    calc 1 < 2 ^ 1 := by norm_num
      _ ≤ 2 ^ k := Nat.pow_le_pow_right (by norm_num) hk
  have hland : wrap32 (2 ^ k) &&& wrap32 (2 ^ k - 1) = 0 := by
    by_cases hk32 : k < 32
    · have hlt : (2 : ℕ) ^ k < 4294967296 := by
        calc (2 : ℕ) ^ k ≤ 2 ^ 31 := Nat.pow_le_pow_right (by norm_num) (by omega)
          _ < 4294967296 := by norm_num
      have h1 : wrap32 (2 ^ k) = 2 ^ k := Nat.mod_eq_of_lt hlt
      have h2 : wrap32 (2 ^ k - 1) = 2 ^ k - 1 := Nat.mod_eq_of_lt (by omega)
      rw [h1, h2]
      apply Nat.eq_of_testBit_eq
      intro i
      simp only [Nat.testBit_and, Nat.zero_testBit, Nat.testBit_two_pow_sub_one]
      by_cases h : i = k
      · subst h; simp
      · simp [Nat.testBit_two_pow_of_ne (fun hh => h hh.symm)]
    · have hdvd : (4294967296 : ℕ) ∣ 2 ^ k := by
        have h32 : (4294967296 : ℕ) = 2 ^ 32 := by norm_num
        rw [h32]
        exact pow_dvd_pow 2 (by omega)
      obtain ⟨c, hc⟩ := hdvd
      have h1 : wrap32 (2 ^ k) = 0 := by
        unfold wrap32
        rw [hc]
        exact Nat.mul_mod_right 4294967296 c
      rw [h1]
      simp
  simp [isPowerOfTwo, hland, hgt]

theorem zipWith_mk_map_re : ∀ (a b : List ℝ), a.length = b.length →
    (List.zipWith (fun x y => (⟨x, y⟩ : ℂ)) a b).map Complex.re = a
  | [], [], _ => rfl
  | x :: a, y :: b, h => by
    have ih := zipWith_mk_map_re a b (by simpa using h)
    simp [ih]
  | [], _ :: _, h => by simp at h
  | _ :: _, [], h => by simp at h

theorem zipWith_mk_map_im : ∀ (a b : List ℝ), a.length = b.length →
    (List.zipWith (fun x y => (⟨x, y⟩ : ℂ)) a b).map Complex.im = b
  | [], [], _ => rfl
  | x :: a, y :: b, h => by
    have ih := zipWith_mk_map_im a b (by simpa using h)
    simp [ih]
  | [], _ :: _, h => by simp at h
  | _ :: _, [], h => by simp at h

theorem zipWith_mk_of_maps : ∀ l : List ℂ,
    List.zipWith (fun x y => (⟨x, y⟩ : ℂ)) (l.map Complex.re)
      (l.map Complex.im) = l
  | [] => rfl
  | z :: l => by
    have ih := zipWith_mk_of_maps l
    simp [ih]

theorem fftMain_length (sign : ℝ) (l : List ℂ) :
    (fftMain sign l).length = l.length := by
  rw [fftMain]
  have hfold : ∀ (js : List ℕ) (acc : List ℂ), acc.length = l.length →
      (js.foldl (fun acc j => butterflyStage sign l.length (2 ^ (j + 1)) acc)
        acc).length = l.length := by
    intro js
    induction js with
    | nil => intro acc h; exact h
    | cons j js ih =>
      intro acc h
      exact ih _ (butterflyStage_length _ _ _ _)
  exact hfold _ _ (by simp)

theorem map_scale_map_mul (n : ℕ) (hn : 0 < n) (v : List ℂ) :
    (v.map (fun z => (n : ℂ) * z)).map
      (fun z => (⟨((n : ℝ))⁻¹ * z.re, ((n : ℝ))⁻¹ * z.im⟩ : ℂ)) = v := by
  rw [List.map_map]
  have hone : ∀ z : ℂ,
      (⟨((n : ℝ))⁻¹ * ((n : ℂ) * z).re, ((n : ℝ))⁻¹ * ((n : ℂ) * z).im⟩ : ℂ)
        = z := by
    intro z
    have hne : ((n : ℝ)) ≠ 0 := Nat.cast_ne_zero.mpr (by omega)
    apply Complex.ext
    · simp only [Complex.mul_re, Complex.natCast_re, Complex.natCast_im]
      field_simp
    · simp only [Complex.mul_im, Complex.natCast_re, Complex.natCast_im]
      field_simp
  calc v.map ((fun z => (⟨((n : ℝ))⁻¹ * z.re, ((n : ℝ))⁻¹ * z.im⟩ : ℂ)) ∘
        fun z => (n : ℂ) * z)
      = v.map id := List.map_congr_left fun z _ => hone z
    _ = v := List.map_id v

/-- Claim C5 (amended): for every power-of-two length `n = 2^k` with `k ≥ 1`
(the transform rejects `n = 1`) and all real/imaginary arrays of that length,
the forward transform followed by the inverse transform returns the original
arrays exactly (over idealised real arithmetic). -/
theorem fft_roundTrip (k : ℕ) (hk : 1 ≤ k) (re im : List ℝ)
    (hre : re.length = 2 ^ k) (him : im.length = 2 ^ k) :
    (fft re im false).bind (fun p => fft p.1 p.2 true) =
      Except.ok (re, im) := by
  have hn : 0 < 2 ^ k := Nat.pos_pow_of_pos k (by norm_num)
  have hp2 : isPowerOfTwo (2 ^ k) = true := isPowerOfTwo_two_pow k hk
  have hlen : im.length = re.length := by rw [hre, him]
  have hv : (List.zipWith (fun a b => (⟨a, b⟩ : ℂ)) re im).length = 2 ^ k := by
    rw [List.length_zipWith, hre, him]
    omega
  set v : List ℂ := List.zipWith (fun a b => (⟨a, b⟩ : ℂ)) re im with hvdef
  have hfwd : fftMain (-1) v = dftl (Wc (-1) (2 ^ k)) v := by
    rw [fftMain_eq_stagesC (-1) k v (Or.inr rfl) hv]
    exact stagesC_permList_eq_dftl (-1) (Or.inr rfl) k v hv
  have hF : (dftl (Wc (-1) (2 ^ k)) v).length = 2 ^ k := by
    rw [dftl_length, hv]
  set F : List ℂ := dftl (Wc (-1) (2 ^ k)) v with hFdef
  -- evaluate the forward call
  have hcond1 : ¬ (im.length ≠ re.length) := by omega
  have hcond2 : ¬ ¬ (isPowerOfTwo re.length = true) := by
    rw [hre, hp2]
    decide
  have hpure1 : fftPure re im false = (F.map Complex.re, F.map Complex.im) := by
    simp only [fftPure, Bool.false_eq_true, if_false, ← hvdef, hfwd, hFdef]
  have hfft1 : fft re im false =
      Except.ok (F.map Complex.re, F.map Complex.im) := by
    rw [fft, if_neg hcond1, if_neg hcond2, hpure1]
  rw [hfft1]
  show fft (F.map Complex.re) (F.map Complex.im) true = Except.ok (re, im)
  -- evaluate the inverse call
  have hFre : (F.map Complex.re).length = 2 ^ k := by
    rw [List.length_map, hFdef, hF]
  have hFim : (F.map Complex.im).length = 2 ^ k := by
    rw [List.length_map, hFdef, hF]
  have hzipF : List.zipWith (fun a b => (⟨a, b⟩ : ℂ)) (F.map Complex.re)
      (F.map Complex.im) = F := zipWith_mk_of_maps F
  have hinv : fftMain 1 F = dftl (Wc 1 (2 ^ k)) F := by
    rw [fftMain_eq_stagesC 1 k F (Or.inl rfl) (by rw [hFdef]; exact hF)]
    exact stagesC_permList_eq_dftl 1 (Or.inl rfl) k F (by rw [hFdef]; exact hF)
  have hcond3 : ¬ ((F.map Complex.im).length ≠ (F.map Complex.re).length) := by
    rw [hFre, hFim]
    omega
  have hcond4 : ¬ ¬ (isPowerOfTwo (F.map Complex.re).length = true) := by
    rw [hFre, hp2]
    decide
  rw [fft, if_neg hcond3, if_neg hcond4]
  have hpure2 : fftPure (F.map Complex.re) (F.map Complex.im) true = (re, im) := by
    simp only [fftPure, if_true, hzipF, hinv, hFre]
    rw [hFdef, dftl_inverse (2 ^ k) hn v hv, map_scale_map_mul (2 ^ k) hn v,
      hvdef, zipWith_mk_map_re re im hlen.symm,
      zipWith_mk_map_im re im hlen.symm]
  rw [hpure2]

/-- Claim C5 witness: the concrete length-2 arrays `re = [1, 2]`,
`im = [3, 4]` round-trip exactly through the forward and inverse
transforms. -/
theorem fft_roundTrip_witness :
    (fft [(1 : ℝ), 2] [(3 : ℝ), 4] false).bind (fun p => fft p.1 p.2 true) =
      Except.ok ([(1 : ℝ), 2], [(3 : ℝ), 4]) :=
  fft_roundTrip 1 (by norm_num) [1, 2] [3, 4] rfl rfl

/-- Claim C5 counterexample: `n = 1` is a power of two, but the transform
rejects length-1 arrays (`isPowerOfTwo` requires `value > 1`), so the
round-trip claim fails at `n = 1`: the pipeline returns an error instead of
the original arrays. -/
theorem fft_roundTrip_fails_length_one :
    (fft [(5 : ℝ)] [(0 : ℝ)] false).bind (fun p => fft p.1 p.2 true) ≠
      Except.ok ([(5 : ℝ)], [(0 : ℝ)]) ∧
    fft [(5 : ℝ)] [(0 : ℝ)] false =
      Except.error "FFT length must be a power of two." := by
  have herr : fft [(5 : ℝ)] [(0 : ℝ)] false =
      Except.error "FFT length must be a power of two." := by
    rw [fft, if_neg (by norm_num), if_pos (by norm_num [isPowerOfTwo])]
  refine ⟨?_, herr⟩
  intro hcontra
  rw [herr] at hcontra
  have himp : (Except.error "FFT length must be a power of two."
      : Except String (List ℝ × List ℝ)) =
      Except.ok ([(5 : ℝ)], [(0 : ℝ)]) := hcontra
  exact Except.noConfusion himp

/-- Claim C9: when the real and imaginary arrays have different lengths the
transform raises the matching-length error immediately — before the
bit-reversal permutation or any butterfly pass runs — and, being modelled as
a pure function returning `Except.error`, leaves both input arrays
untouched. -/
theorem fft_mismatched_lengths (re im : List ℝ) (inverse : Bool)
    (h : im.length ≠ re.length) :
    fft re im inverse =
      Except.error "FFT arrays must have matching lengths." := by
  rw [fft, if_pos h]

/-- Claim C9 witness: a one-sample real array with an empty imaginary array
produces the matching-length error. -/
theorem fft_mismatched_lengths_witness :
    fft [(1 : ℝ)] [] false =
      Except.error "FFT arrays must have matching lengths." :=
  fft_mismatched_lengths [(1 : ℝ)] [] false (by simp)

theorem fillWindowedSignal_length (samples : List ℝ) (start fftSize : ℕ)
    (window : List ℝ) :
    (fillWindowedSignal samples start fftSize window).length = fftSize := by
  simp [fillWindowedSignal]

theorem sanitize_isPowerOfTwo (value : Option ℚ) :
    isPowerOfTwo (sanitizePowerOfTwo value 2048) = true := by
  unfold sanitizePowerOfTwo
  cases value with
  | none => decide
  | some q =>
    dsimp only []
    split_ifs with h1 h2 h3
    · decide
    · decide
    · decide
    · push_neg at h1 h2 h3
      simp only [isPowerOfTwo, h3, Bool.and_eq_true, decide_eq_true_eq]
      exact ⟨by omega, trivial⟩

theorem fft_ok (re im : List ℝ) (inverse : Bool)
    (hlen : im.length = re.length) (hpow : isPowerOfTwo re.length = true) :
    fft re im inverse = .ok (fftPure re im inverse) := by
  rw [fft, if_neg (by omega), if_neg (by rw [hpow]; decide)]

theorem stftStep_eq (c : StftCtx) (st : StftState) (frame : ℕ)
    (h : isPowerOfTwo c.fftSize = true) :
    stftStep c st frame = .ok (stftStepPure c st frame) := by
  have h1 : fft (fillWindowedSignal c.left (frame * c.hopSize) c.fftSize
      c.hannWindow) (List.replicate c.fftSize (0 : ℝ)) false =
      .ok (fftPure (fillWindowedSignal c.left (frame * c.hopSize) c.fftSize
        c.hannWindow) (List.replicate c.fftSize (0 : ℝ)) false) :=
    fft_ok _ _ false
      (by rw [fillWindowedSignal_length, List.length_replicate])
      (by rw [fillWindowedSignal_length]; exact h)
  have h2 : fft (fillWindowedSignal c.right (frame * c.hopSize) c.fftSize
      c.hannWindow) (List.replicate c.fftSize (0 : ℝ)) false =
      .ok (fftPure (fillWindowedSignal c.right (frame * c.hopSize) c.fftSize
        c.hannWindow) (List.replicate c.fftSize (0 : ℝ)) false) :=
    fft_ok _ _ false
      (by rw [fillWindowedSignal_length, List.length_replicate])
      (by rw [fillWindowedSignal_length]; exact h)
  simp only [stftStep, stftStepPure, h1, h2]

theorem foldlM_eq_foldl {σ α : Type} (f : σ → α → Except String σ)
    (g : σ → α → σ) (h : ∀ st a, f st a = .ok (g st a)) :
    ∀ (l : List α) (st : σ), l.foldlM f st = .ok (l.foldl g st) := by
  intro l
  induction l with
  | nil => intro st; rfl
  | cons a l ih =>
    intro st
    rw [List.foldlM_cons, h st a]
    show l.foldlM f (g st a) = _
    rw [ih (g st a), List.foldl_cons]

theorem validate_fftSize (p : Payload) (v : Prepared)
    (h : validateAndPrepare p = .ok v) :
    v.fftSize = sanitizePowerOfTwo p.fftSize 2048 := by
  simp only [validateAndPrepare] at h
  split_ifs at h
  rw [← Except.ok.inj h]

/-- On any payload, `runPrecompute` equals the validator followed by the
total bundle computation: the `fft` guards inside the STFT loop never fire
because the sanitised `fftSize` is always a power of two. -/
theorem runPrecompute_eq (p : Payload) :
    runPrecompute p = (validateAndPrepare p).map pureBundle := by
  unfold runPrecompute
  cases hval : validateAndPrepare p with
  | error e => rfl
  | ok v =>
    have hpow : isPowerOfTwo (mkCtx v).fftSize = true := by
      have hfft : (mkCtx v).fftSize = v.fftSize := rfl
      rw [hfft, validate_fftSize p v hval]
      exact sanitize_isPowerOfTwo p.fftSize
    dsimp only []
    rw [foldlM_eq_foldl (stftStep (mkCtx v)) (stftStepPure (mkCtx v))
      (fun st a => stftStep_eq (mkCtx v) st a hpow)]
    rfl

theorem runPrecompute_congr_validate (p q : Payload)
    (h : validateAndPrepare p = validateAndPrepare q) :
    runPrecompute p = runPrecompute q := by
  rw [runPrecompute_eq, runPrecompute_eq, h]

theorem stftStepPure_flux_length (c : StftCtx) (st : StftState) (frame : ℕ) :
    (stftStepPure c st frame).spectralFlux.length =
      st.spectralFlux.length + 1 := by
  unfold stftStepPure
  simp

theorem foldl_flux_length (c : StftCtx) :
    ∀ (l : List ℕ) (st : StftState),
      ((l.foldl (stftStepPure c) st).spectralFlux).length =
        st.spectralFlux.length + l.length := by
  intro l
  induction l with
  | nil => intro st; simp
  | cons a l ih =>
    intro st
    rw [List.foldl_cons, ih, stftStepPure_flux_length]
    simp
    omega

theorem pureBundle_flux_length (v : Prepared) :
    (pureBundle v).spectralFlux.length = (mkCtx v).numFrames := by
  unfold pureBundle assembleBundle
  simp only []
  rw [foldl_flux_length]
  simp [initState]

/-- Claim C8: for every payload whose run succeeds, the onset index array of
the result bundle is strictly increasing and every onset index is below the
bundle's frame count. -/
theorem runPrecompute_onsets_sorted (p : Payload) (b : Bundle)
    (h : runPrecompute p = .ok b) :
    List.Pairwise (· < ·) b.onsets ∧ ∀ i ∈ b.onsets, i < b.numFrames := by
  rw [runPrecompute_eq] at h
  cases hval : validateAndPrepare p with
  | error e => rw [hval] at h; exact Except.noConfusion h
  | ok v =>
    rw [hval] at h
    have hb : b = pureBundle v := (Except.ok.inj h).symm
    subst hb
    have honsets : (pureBundle v).onsets =
        detectOnsets (pureBundle v).spectralFlux
          (computeRunningMedian (pureBundle v).spectralFlux 10) := rfl
    have hframes : (pureBundle v).numFrames = (mkCtx v).numFrames := rfl
    constructor
    · rw [honsets]
      exact detectOnsets_pairwise _ _
    · intro i hi
      rw [honsets] at hi
      have := detectOnsets_lt_length _ _ i hi
      rw [pureBundle_flux_length v] at this
      rw [hframes]
      exact this

/-- Claim C8 witness: the one-sample payload with `fftSize = 2` runs
successfully, and its bundle's onset array is strictly increasing with
every index below the frame count. -/
theorem runPrecompute_onsets_sorted_witness :
    List.Pairwise (· < ·)
      (pureBundle ⟨[0], [0], 44100, 2, 512, 40, 1⟩).onsets ∧
    ∀ i ∈ (pureBundle ⟨[0], [0], 44100, 2, 512, 40, 1⟩).onsets,
      i < (pureBundle ⟨[0], [0], 44100, 2, 512, 40, 1⟩).numFrames :=
  runPrecompute_onsets_sorted
    ⟨[0], none, none, some 2, none, none, none⟩
    (pureBundle ⟨[0], [0], 44100, 2, 512, 40, 1⟩)
    (by rw [runPrecompute_eq]; rfl)

/-- Claim C1 (amended): an `fftSize` that is not a power-of-two integer
`≥ 2` never aborts the run at validation.  Whenever the source's own
32-bit `&` check flags the value — which it does for every such value
whose low 32 bits are not a power of two, in particular every invalid
value below `2^32` — `sanitizePowerOfTwo` silently replaces it with the
default 2048 and the run behaves exactly as if no `fftSize` had been
supplied.  The `ToInt32` truncation of `&`, however, lets some invalid
values slip through the check unchanged: `2^32 + 2^31 = 6442450944` is
not a power of two, yet it is returned as-is because its low 32 bits are
`0x80000000`. -/
theorem invalid_fftSize_uses_default :
    (∀ (p : Payload) (q : ℚ), p.fftSize = some q →
      ¬ (q.den = 1 ∧ 2 ≤ q.num ∧
        wrap32 q.num.toNat &&& wrap32 (q.num.toNat - 1) = 0) →
      sanitizePowerOfTwo p.fftSize 2048 = 2048 ∧
      runPrecompute p = runPrecompute { p with fftSize := none }) ∧
    sanitizePowerOfTwo (some (6442450944 : ℚ)) 2048 = 6442450944 ∧
    (∀ k : ℕ, (6442450944 : ℕ) ≠ 2 ^ k) := by
  refine ⟨?_, ?_, ?_⟩
  · intro p q hq hbad
    have hsan : sanitizePowerOfTwo (some q) 2048 = 2048 := by
      unfold sanitizePowerOfTwo
      dsimp only []
      split_ifs with h1 h2 h3
      · rfl
      · rfl
      · rfl
      · push_neg at h1 h2 h3
        exact absurd ⟨h1, by omega, h3⟩ hbad
    refine ⟨by rw [hq]; exact hsan, ?_⟩
    apply runPrecompute_congr_validate
    unfold validateAndPrepare
    rw [hq, hsan]
    rfl
  · decide
  · intro k h
    rcases le_or_lt k 32 with hk | hk
    · have h32 : (2 : ℕ) ^ k ≤ 4294967296 := by
        calc (2 : ℕ) ^ k ≤ 2 ^ 32 := Nat.pow_le_pow_right (by norm_num) hk
          _ = 4294967296 := by norm_num
      omega
    · have h33 : (8589934592 : ℕ) ≤ 2 ^ k := by
        calc (8589934592 : ℕ) = 2 ^ 33 := by norm_num
          _ ≤ 2 ^ k := Nat.pow_le_pow_right (by norm_num) hk
      omega

/-- Claim C1 witness: `fftSize = 3` (flagged by the 32-bit check) is
replaced by the default 2048 and the run is unaffected. -/
theorem invalid_fftSize_uses_default_witness :
    sanitizePowerOfTwo (Payload.fftSize
      ⟨[1], none, none, some 3, none, none, none⟩) 2048 = 2048 ∧
    runPrecompute ⟨[1], none, none, some 3, none, none, none⟩ =
      runPrecompute ⟨[1], none, none, none, none, none, none⟩ :=
  invalid_fftSize_uses_default.1
    ⟨[1], none, none, some 3, none, none, none⟩ 3 rfl (by decide)

/-- Claim C1 counterexample: with `fftSize = 3` — not a power of two — the
run does NOT fail: it succeeds with the default configuration
(`fftSize = 2048`, visible in the prepared inputs), refuting "the pipeline
run fails immediately with a terminal error". -/
theorem invalid_fftSize_run_succeeds :
    runPrecompute ⟨[1], none, none, some 3, none, none, none⟩ =
      .ok (pureBundle ⟨[1], [1], 44100, 2048, 512, 40, 1⟩) := by
  rw [runPrecompute_eq]
  rfl

/-- Claim C2 (amended): mismatched channel lengths are not an error; the
pipeline truncates both channels to the effective sample count
(`min(numSamples, left.length, right.length)`) and aborts only when that
count is zero. -/
theorem mismatched_channels_no_abort (p : Payload) (r : List ℝ)
    (hr : p.right = some r) (hne : r.length ≠ p.left.length) :
    ((runPrecompute p).isOk = true ↔ 1 ≤ effectiveNumSamples p) := by
  rw [runPrecompute_eq]
  unfold validateAndPrepare
  by_cases hns : effectiveNumSamples p < 1
  · rw [if_pos hns]
    constructor
    · intro hcontra
      simp [Except.map, Except.isOk, Except.toBool] at hcontra
    · omega
  · rw [if_neg hns]
    constructor
    · intro _
      omega
    · intro _
      rfl

/-- Claim C2 witness: `left = [5]`, `right = [6, 7]` have mismatched
lengths, yet the run succeeds (the effective sample count is 1). -/
theorem mismatched_channels_no_abort_witness :
    (runPrecompute ⟨[5], some [6, 7], none, none, none, none, none⟩).isOk
      = true :=
  (mismatched_channels_no_abort
    ⟨[5], some [6, 7], none, none, none, none, none⟩ [6, 7] rfl
    (by simp)).mpr (by decide)

/-- Claim C2 counterexample: with `left = [1, 2]` and `right = [3]` (lengths
2 and 1) the pipeline does not abort: it truncates both channels to one
sample and returns a full result bundle. -/
theorem mismatched_channels_run_succeeds :
    runPrecompute ⟨[1, 2], some [3], none, none, none, none, none⟩ =
      .ok (pureBundle ⟨[1], [3], 44100, 2048, 512, 40, 1⟩) := by
  rw [runPrecompute_eq]
  rfl

/-- Claim C10 (amended): a payload that omits the right channel runs with
the right channel equal to a copy of the left channel — the run is
identical to one supplied with `right := left` — and it does not fail
provided the left channel is nonempty (an empty left channel aborts with
"Audio payload has no samples."). -/
theorem right_omitted_dual_mono (p : Payload) (h : p.right = none) :
    runPrecompute p = runPrecompute { p with right := some p.left } ∧
    (p.left ≠ [] → (runPrecompute p).isOk = true) := by
  constructor
  · apply runPrecompute_congr_validate
    unfold validateAndPrepare effectiveNumSamples resolveRight
    rw [h]
    rfl
  · intro hne
    have hns : 1 ≤ effectiveNumSamples p := by
      unfold effectiveNumSamples resolveRight
      rw [h]
      have hlen : 1 ≤ p.left.length := by
        cases hl : p.left with
        | nil => exact absurd hl hne
        | cons a t => simp
      rcases p.numSamples with _ | n <;> dsimp only [] <;> [skip; split_ifs]
        <;> omega
    rw [runPrecompute_eq]
    unfold validateAndPrepare
    rw [if_neg (by omega)]
    rfl

/-- Claim C10 witness: the one-sample payload `left = [1]` with no right
channel behaves exactly like the dual-mono payload and succeeds. -/
theorem right_omitted_dual_mono_witness :
    runPrecompute ⟨[1], none, none, none, none, none, none⟩ =
      runPrecompute ⟨[1], some [1], none, none, none, none, none⟩ ∧
    (runPrecompute ⟨[1], none, none, none, none, none, none⟩).isOk = true :=
  ⟨(right_omitted_dual_mono ⟨[1], none, none, none, none, none, none⟩ rfl).1,
   (right_omitted_dual_mono ⟨[1], none, none, none, none, none, none⟩ rfl).2
     (by simp)⟩

/-- Claim C10 counterexample: an empty left channel with the right channel
omitted makes the run fail ("Audio payload has no samples."), refuting
"for every input payload that supplies a left channel but omits the right
channel, the pipeline does not fail". -/
theorem right_omitted_empty_left_fails :
    runPrecompute ⟨[], none, none, none, none, none, none⟩ =
      .error "Audio payload has no samples." := by
  rw [runPrecompute_eq]
  rfl

/-- Claim C3 (refuted — code bug): the sequence of progress percentages is
NOT non-decreasing for every successful run. The payload with 102 samples,
`fftSize = 2`, `hopSize = 1` yields 101 frames, and the posted percentages
are `2, 10, 20, 21` followed by the first in-loop checkpoint
`round(20 + (1/101)·50) = 20`, a regression from 21 to 20. -/
theorem progress_regresses_after_fixed_checkpoints :
    effectiveNumFrames
      ⟨List.replicate 102 0, none, none, some 2, some 1, none, none⟩ = 101 ∧
    ¬ List.Chain' (· ≤ ·) (progressPercents 101) := by
  constructor
  · decide
  · have hfilter : (List.range 101).filter
        (fun frame => decide (frame &&& 31 = 0) || decide (frame = 101 - 1))
        = [0, 32, 64, 96, 100] := by decide
    have hchk : stftCheckpoints 101 =
        List.map (fun frame =>
          20 + (((frame : ℕ) : ℚ) + 1) / ((101 : ℕ) : ℚ) * 50)
          [0, 32, 64, 96, 100] := by
      unfold stftCheckpoints
      rw [hfilter]
      simp
    have hlist : progressPercents 101 =
        [2, 10, 20, 21, 20, 36, 52, 68, 70, 75, 80, 85, 95, 100] := by
      rw [progressPercents, hchk]
      norm_num [postProgressValue, jsRound]
    rw [hlist]
    intro hc
    have h21 : (21 : ℤ) ≤ 20 :=
      (List.chain'_cons.mp (List.chain'_cons.mp
        (List.chain'_cons.mp (List.chain'_cons.mp hc).2).2).2).1
    omega

end SlicerPanel
